import Mathlib

/-!
# Dynamic arrays and two-dimensional arrays

A shallow embedding of `src/dynamic_arrays.cpp` (`dynamicArrays`) and
`src/two_dimensional_arrays.cpp` (`twoDimensionalArrays`).

* C++ `int` values are mathematical integers that must stay inside the 32-bit
  range; an expression that leaves it (signed overflow, undefined in C++) has
  no value (`none`).
* The free store is an explicit `Heap`: a list of blocks addressed from 1
  (`0` is `nullptr`), each block live (`some cells`) or released (`none`),
  together with a log of the `new[]` / `delete[]` events.  Reads and writes
  outside a live block have no value.  `new[]` never runs out of memory.
* The literals `capacity = 4`, `rows = 3`, `cols = 4` of the source are
  arguments of the embedded functions; the programs themselves are the
  instances at the source's literals.
* The `std::cout` statements do not change any variable or block and are left
  out of the state traces.  The calls of `printArray` and the print loops,
  which read blocks, are embedded with the console as the list of the items
  written, in order (`dynamicArraysPrinted`, `twoDimensionalArraysPrinted`).
-/

namespace DynamicArrays

/-! ## Machine integers -/

/-- Largest value of a 32-bit C++ `int`. -/
def INT_MAX : Int := 2147483647

/-- Smallest value of a 32-bit C++ `int`. -/
def INT_MIN : Int := -2147483648

/-- Value of an `int` expression whose mathematical result is `v`: defined only
when `v` is representable. -/
def checkInt (v : Int) : Option Int :=
  if INT_MIN ≤ v ∧ v ≤ INT_MAX then some v else none

/-! ## The free store -/

/-! Addresses of heap blocks are natural numbers; `0` is `nullptr`. -/

/-- Contents of one array cell: not yet written, an `int`, or an `int*`. -/
inductive Val where
  | undef : Val
  | int (v : Int) : Val
  | ptr (p : Nat) : Val
deriving DecidableEq

/-- Allocator events, in the order they happen. -/
inductive Event where
  | alloc (p : Nat) (n : Nat) : Event
  | free (p : Nat) : Event
deriving DecidableEq

/-- The free store: block `p` (for `p ≥ 1`) is `blocks[p-1]`, `none` once it has
been released; `log` records every `new[]` and `delete[]`. -/
structure Heap where
  blocks : List (Option (List Val))
  log : List Event
deriving DecidableEq

/-- The free store before any allocation. -/
def Heap.empty : Heap := ⟨[], []⟩

/-- The cells of the live block at address `p`, if there is one. -/
def Heap.block (h : Heap) (p : Nat) : Option (List Val) :=
  if p = 0 then none
  else match h.blocks[p - 1]? with
    | some (some b) => some b
    | _ => none

/-- The expression `new T[n]`: a fresh block of `n` unwritten cells at the next
address.  A negative `n` throws. -/
def Heap.newArr (h : Heap) (n : Int) : Option (Nat × Heap) :=
  if n < 0 then none
  else some (h.blocks.length + 1,
    { blocks := h.blocks ++ [some (List.replicate n.toNat Val.undef)],
      log := h.log ++ [Event.alloc (h.blocks.length + 1) n.toNat] })

/-- The statement `delete[] p`: nothing happens for `nullptr`; a live block is
released; anything else (a second release, a wild pointer) is undefined. -/
def Heap.deleteArr (h : Heap) (p : Nat) : Option Heap :=
  if p = 0 then some h
  else match h.block p with
    | some _ => some { blocks := h.blocks.set (p - 1) none, log := h.log ++ [Event.free p] }
    | none => none

/-- The rvalue `p[i]`. -/
def Heap.read (h : Heap) (p : Nat) (i : Int) : Option Val :=
  match h.block p with
  | some b => if 0 ≤ i then b[i.toNat]? else none
  | none => none

/-- The assignment `p[i] = v`. -/
def Heap.write (h : Heap) (p : Nat) (i : Int) (v : Val) : Option Heap :=
  match h.block p with
  | some b =>
    if 0 ≤ i ∧ i.toNat < b.length then
      some { h with blocks := h.blocks.set (p - 1) (some (b.set i.toNat v)) }
    else none
  | none => none

/-- The rvalue `p[i]` used as an `int*`. -/
def Heap.readPtr (h : Heap) (p : Nat) (i : Int) : Option Nat :=
  match h.read p i with
  | some (Val.ptr q) => some q
  | _ => none

/-! ## Counting loops -/

/-- The loop `for (...; i < hi; ++i) body`, entered with counter `i`; `fuel`
bounds the number of condition tests. -/
def forLoop {σ : Type} (body : Int → σ → Option σ) (hi : Int) : Nat → Int → σ → Option σ
  | 0, _, _ => none
  | fuel + 1, i, s =>
    if i < hi then (body i s).bind (forLoop body hi fuel (i + 1)) else some s

/-- The loop `for (int i = 0; i < hi; ++i) body`: `hi` iterations and one more
condition test. -/
def forUpTo {σ : Type} (hi : Int) (body : Int → σ → Option σ) (s : σ) : Option σ :=
  forLoop body hi (hi.toNat + 1) 0 s

/-! ## `dynamicArrays` -/

/-- The variables of `dynamicArrays` and the free store.  `copied` is a ghost
counter of the executions of `newArr[i] = arr[i]`. -/
structure DAState where
  capacity : Int
  count : Int
  arr : Nat
  copied : Nat
  heap : Heap
deriving DecidableEq

/-- Lines 38-50: `int capacity = 4; int count = 0; int* arr = new int[capacity];`
with the literal as an argument. -/
def create (capacity : Int) (h : Heap) : Option DAState := do
  let (arr, h1) ← h.newArr capacity
  some { capacity := capacity, count := 0, arr := arr, copied := 0, heap := h1 }

/-- Lines 62-64, 72, 165-167: `arr[count] = v; count++;`. -/
def append (v : Int) (s : DAState) : Option DAState := do
  let h ← s.heap.write s.arr s.count (Val.int v)
  let c ← checkInt (s.count + 1)
  some { s with count := c, heap := h }

/-- Line 119: `newArr[i] = arr[i];`. -/
def copyElem (arr newArr : Nat) (i : Int) (s : DAState) : Option DAState := do
  let v ← s.heap.read arr i
  let h ← s.heap.write newArr i v
  some { s with copied := s.copied + 1, heap := h }

/-- Lines 108-143, the resize step, as the list of states after
`new int[newCapacity]`, after the copy loop, after `delete[] arr`, after
`arr = newArr` and after `capacity = newCapacity`. -/
def resizeTrace (s : DAState) : Option (List DAState) := do
  let newCapacity ← checkInt (s.capacity * 2)
  let (newArr, h1) ← s.heap.newArr newCapacity
  let s1 := { s with heap := h1 }
  let s2 ← forUpTo s.count (copyElem s.arr newArr) s1
  let h3 ← s2.heap.deleteArr s.arr
  let s3 := { s2 with heap := h3 }
  let s4 := { s3 with arr := newArr }
  let s5 := { s4 with capacity := newCapacity }
  some [s1, s2, s3, s4, s5]

/-- Lines 108-143: the state after the whole resize step. -/
def resize (s : DAState) : Option DAState :=
  (resizeTrace s).bind List.getLast?

/-- Lines 183-184, the cleanup step, as the states after `delete[] arr` and
after `arr = nullptr`. -/
def cleanupTrace (s : DAState) : Option (List DAState) := do
  let h ← s.heap.deleteArr s.arr
  let s1 := { s with heap := h }
  let s2 := { s1 with arr := 0 }
  some [s1, s2]

/-- Lines 183-184: the state after the whole cleanup step. -/
def cleanup (s : DAState) : Option DAState :=
  (cleanupTrace s).bind List.getLast?

/-- The statement group that produced a state of the trace. -/
inductive Label where
  | created : Label
  | appended (v : Int) : Label
  | resizing : Label
  | cleaning : Label
deriving DecidableEq

/-- The states gone through so far, each with the statement group that
produced it. -/
abbrev Trace := List (Label × DAState)

/-- Runs one statement group on the last state of the trace and records the
states it goes through. -/
def Trace.step (l : Label) (f : DAState → Option (List DAState)) (t : Trace) : Option Trace := do
  let (_, s) ← t.getLast?
  let ss ← f s
  some (t ++ ss.map (fun s1 => (l, s1)))

/-- A statement group with a single resulting state. -/
def single (f : DAState → Option DAState) (s : DAState) : Option (List DAState) :=
  (f s).map (fun s1 => [s1])

/-- The function `dynamicArrays`, as the labelled list of the states it goes
through, in order: creation (lines 38-50), the appends of 10, 20, 30 (62-64)
and 40 (72), the resize step (108-143), the appends of 50, 60, 70 (165-167)
and the cleanup (183-184). -/
def dynamicArrays : Option Trace :=
  ((create 4 Heap.empty).map (fun s => [(Label.created, s)]))
  >>= Trace.step (Label.appended 10) (single (append 10))
  >>= Trace.step (Label.appended 20) (single (append 20))
  >>= Trace.step (Label.appended 30) (single (append 30))
  >>= Trace.step (Label.appended 40) (single (append 40))
  >>= Trace.step Label.resizing resizeTrace
  >>= Trace.step (Label.appended 50) (single (append 50))
  >>= Trace.step (Label.appended 60) (single (append 60))
  >>= Trace.step (Label.appended 70) (single (append 70))
  >>= Trace.step Label.cleaning cleanupTrace

/-- The elements of the buffer: the first `count` cells of the block `arr`
points to. -/
def elements (s : DAState) : Option (List Val) :=
  (s.heap.block s.arr).map (fun b => b.take s.count.toNat)

/-- Modelled from the spec: the source has no append that grows on demand, it
runs its statements in the fixed order of `dynamicArrays`.  This is the spec's
`append(value)` ("If `count == capacity`, triggers Grow first.  Writes `value`
at index `count`, then `count += 1`"), with the source's resize step (lines
108-143) as Grow and the source's `arr[count] = v; count++;` as the write. -/
def appendGrowing (v : Int) (s : DAState) : Option DAState :=
  if s.count = s.capacity then (resize s).bind (append v) else append v s

/-- Modelled from the spec: a sequence of `vs.length` growing appends, of the
values `vs` in order. -/
def appendAll : List Int → DAState → Option DAState
  | [], s => some s
  | v :: vs, s => (appendGrowing v s).bind (appendAll vs)

/-! ## `twoDimensionalArrays` -/

/-- Lines 54-64: `int** table = new int*[rows];` and the loop
`table[i] = new int[cols];`. -/
def allocTable (rows cols : Int) (h : Heap) : Option (Nat × Heap) := do
  let (table, h1) ← h.newArr rows
  let h2 ← forUpTo rows (fun i hp => do
    let (row, hq) ← hp.newArr cols
    hq.write table i (Val.ptr row)) h1
  some (table, h2)

/-- The value `(r * cols) + c + 1` of lines 79 and 143. -/
def cellValue (cols r c : Int) : Option Int := do
  let a ← checkInt (r * cols)
  let b ← checkInt (a + c)
  checkInt (b + 1)

/-- The offset `r * cols + c` of lines 143 and 157. -/
def flatIndex (cols r c : Int) : Option Int := do
  let a ← checkInt (r * cols)
  checkInt (a + c)

/-- Lines 77-81: the nested loop `table[r][c] = (r * cols) + c + 1;`. -/
def fillTable (table : Nat) (rows cols : Int) (h : Heap) : Option Heap :=
  forUpTo rows (fun r hr => forUpTo cols (fun c hc => do
    let v ← cellValue cols r c
    let row ← hc.readPtr table r
    hc.write row c (Val.int v)) hr) h

/-- The rvalue `table[r][c]` of line 93. -/
def readTable (h : Heap) (table : Nat) (r c : Int) : Option Val := do
  let row ← h.readPtr table r
  h.read row c

/-- Lines 104-106: the loop `delete[] table[i];`. -/
def freeRows (table : Nat) (rows : Int) (h : Heap) : Option Heap :=
  forUpTo rows (fun i hp => do
    let row ← hp.readPtr table i
    hp.deleteArr row) h

/-- Line 137: `int* flat = new int[rows * cols];`. -/
def allocFlat (rows cols : Int) (h : Heap) : Option (Nat × Heap) := do
  let n ← checkInt (rows * cols)
  h.newArr n

/-- Lines 141-145: the nested loop `flat[r * cols + c] = (r * cols) + c + 1;`. -/
def fillFlat (flat : Nat) (rows cols : Int) (h : Heap) : Option Heap :=
  forUpTo rows (fun r hr => forUpTo cols (fun c hc => do
    let v ← cellValue cols r c
    let k ← flatIndex cols r c
    hc.write flat k (Val.int v)) hr) h

/-- The rvalue `flat[r * cols + c]` of line 157. -/
def readFlat (h : Heap) (flat : Nat) (cols r c : Int) : Option Val := do
  let k ← flatIndex cols r c
  h.read flat k

/-- The pointers and the successive free stores of one run of
`twoDimensionalArrays`. -/
structure TDRun where
  table : Nat
  tableAllocated : Heap
  tableFilled : Heap
  rowsFreed : Heap
  spineFreed : Heap
  flat : Nat
  flatAllocated : Heap
  flatFilled : Heap
  flatFreed : Heap
deriving DecidableEq

/-- Lines 54-118: the spine-plus-rows table is allocated, filled, and released
by the loop over the rows and then `delete[] table`.  The result is the value
of `table` and the free stores after the allocation, after the fill, after the
loop `delete[] table[i]` and after `delete[] table`.  (The assignment
`table = nullptr` touches no block.) -/
def tablePart (rows cols : Int) (h : Heap) : Option (Nat × Heap × Heap × Heap × Heap) := do
  let (table, h1) ← allocTable rows cols h
  let h2 ← fillTable table rows cols h1
  let h3 ← freeRows table rows h2
  let h4 ← h3.deleteArr table
  some (table, h1, h2, h3, h4)

/-- Lines 137-165: the flat table is allocated, filled and released.  The
result is the value of `flat` and the free stores after the allocation, after
the fill and after `delete[] flat`. -/
def flatPart (rows cols : Int) (h : Heap) : Option (Nat × Heap × Heap × Heap) := do
  let (flat, h1) ← allocFlat rows cols h
  let h2 ← fillFlat flat rows cols h1
  let h3 ← h2.deleteArr flat
  some (flat, h1, h2, h3)

/-- The function `twoDimensionalArrays` from line 36 on, with the literals
`rows = 3` and `cols = 4` as arguments.  (Lines 19-31, the static `grid`, use
no heap block.) -/
def twoDimensionalArraysWith (rows cols : Int) : Option TDRun := do
  let (table, h1, h2, h3, h4) ← tablePart rows cols Heap.empty
  let (flat, h5, h6, h7) ← flatPart rows cols h4
  some { table := table, tableAllocated := h1, tableFilled := h2, rowsFreed := h3,
         spineFreed := h4, flat := flat, flatAllocated := h5, flatFilled := h6,
         flatFreed := h7 }

/-- The function `twoDimensionalArrays` (`int rows = 3; int cols = 4;`). -/
def twoDimensionalArrays : Option TDRun :=
  twoDimensionalArraysWith 3 4

/-! ## Predicates used in the statements and proofs -/

/-- A buffer state the statements of `dynamicArrays` can run on: `0 ≤ count ≤
capacity` and `arr` points to a live block of exactly `capacity` cells. -/
def DAState.wf (s : DAState) : Prop :=
  0 ≤ s.count ∧ s.count ≤ s.capacity ∧
    (s.heap.block s.arr).map (fun b => (b.length : Int)) = some s.capacity

instance (s : DAState) : Decidable s.wf := by
  unfold DAState.wf
  infer_instance

/-- Whether a state of the trace was produced by `arr[count] = v; count++;`. -/
def Label.isAppended : Label → Bool
  | Label.appended _ => true
  | _ => false

/-- A list of `int` cells. -/
def ints (vs : List Int) : List Val := vs.map Val.int

/-- The buffer of `dynamicArrays` when it is full: capacity 4, count 4, cells
10, 20, 30, 40 (the state after line 72, with the ghost counter at 0). -/
def fullBuffer : DAState :=
  { capacity := 4, count := 4, arr := 1, copied := 0,
    heap := { blocks := [some (ints [10, 20, 30, 40])], log := [Event.alloc 1 4] } }

/-- The growth bookkeeping of a run of appends that started with capacity
`c0`: every copy made so far is accounted for by the capacity gained, and a
buffer that has grown is more than half full. -/
def growthInv (c0 : Int) (s : DAState) : Prop :=
  s.wf ∧ 1 ≤ s.capacity ∧ (s.copied : Int) + c0 = s.capacity
    ∧ (s.capacity = c0 ∨ s.capacity < 2 * s.count)

/-- The spine at `t` of a table whose row `i` lives at address `t + 1 + i`. -/
def SpineAt (h : Heap) (t n : Nat) : Prop :=
  ∃ sp, h.block t = some sp ∧ sp.length = n ∧ ∀ j, j < n → sp[j]? = some (Val.ptr (t + 1 + j))

/-- Row `i` of the table at `t` is live with `m` cells, the first `k` of
which hold the fill pattern. -/
def RowFilled (h : Heap) (t m i k : Nat) : Prop :=
  ∃ b, h.block (t + 1 + i) = some b ∧ b.length = m
    ∧ ∀ j, j < k → b[j]? = some (Val.int ((i : Int) * (m : Int) + (j : Int) + 1))

/-- The flat block at `f` is live with `len` cells, the first `k` of which
hold `1, 2, ..., k`. -/
def FlatFilled (h : Heap) (f len k : Nat) : Prop :=
  ∃ b, h.block f = some b ∧ b.length = len
    ∧ ∀ j, j < k → b[j]? = some (Val.int ((j : Int) + 1))

/-! ## Console output -/

/-- The rvalue `p[i]` used as an `int`: an unwritten cell has no value. -/
def Heap.readInt (h : Heap) (p : Nat) (i : Int) : Option Int :=
  match h.read p i with
  | some (Val.int v) => some v
  | _ => none

/-- The text on the console: the items written to `std::cout`, in order, joined. -/
def consoleText (out : List String) : String :=
  String.join out

/-- Lines 6-13, the function `printArray`; the items it writes to `std::cout`
are added at the end of `out` (an `int` is written in decimal, as `toString`
does). -/
def printArray (h : Heap) (arr : Nat) (count capacity : Int) (out : List String) :
    Option (List String) := do
  let out1 := out ++ ["  ["]
  let out2 ← forUpTo count (fun i o => do
    let v ← h.readInt arr i
    let o1 := o ++ [toString v]
    let last ← checkInt (count - 1)
    if i < last then some (o1 ++ [", "]) else some o1) out1
  some (out2 ++ ["]  (count=", toString count, ", capacity=", toString capacity, ")", "\n"])

/-- A statement group of `dynamicArrays` run on the trace, the console
unchanged. -/
def stepPrinted (l : Label) (f : DAState → Option (List DAState))
    (x : Trace × List String) : Option (Trace × List String) :=
  (Trace.step l f x.1).map (fun t => (t, x.2))

/-- The statements `std::cout << label; printArray(arr, count, capacity);` in
the last state of the trace. -/
def printState (label : String) (x : Trace × List String) : Option (Trace × List String) := do
  let (_, s) ← x.1.getLast?
  let out ← printArray s.heap s.arr s.count s.capacity (x.2 ++ [label])
  some (x.1, out)

/-- The function `dynamicArrays` with its five calls of `printArray` (lines 55,
69, 77, 159, 173) and the label written just before each (lines 52, 66, 74,
156, 169), in the order of the source.  The other `std::cout` statements write
string literals and `int` variables only and are left out. -/
def dynamicArraysPrinted : Option (Trace × List String) :=
  ((create 4 Heap.empty).map (fun s => ([(Label.created, s)], ([] : List String))))
  >>= printState "Empty array created"
  >>= stepPrinted (Label.appended 10) (single (append 10))
  >>= stepPrinted (Label.appended 20) (single (append 20))
  >>= stepPrinted (Label.appended 30) (single (append 30))
  >>= printState "After adding 10, 20, 30:"
  >>= stepPrinted (Label.appended 40) (single (append 40))
  >>= printState "After adding 40 (full!):"
  >>= stepPrinted Label.resizing resizeTrace
  >>= printState "Resized!"
  >>= stepPrinted (Label.appended 50) (single (append 50))
  >>= stepPrinted (Label.appended 60) (single (append 60))
  >>= stepPrinted (Label.appended 70) (single (append 70))
  >>= printState "After adding 50, 60, 70:"
  >>= stepPrinted Label.cleaning cleanupTrace

/-- The rvalue `table[r][c]` of line 93, written as an `int`. -/
def readTableInt (h : Heap) (table : Nat) (r c : Int) : Option Int :=
  match readTable h table r c with
  | some (Val.int v) => some v
  | _ => none

/-- The rvalue `flat[r * cols + c]` of line 157, written as an `int`. -/
def readFlatInt (h : Heap) (flat : Nat) (cols r c : Int) : Option Int :=
  match readFlat h flat cols r c with
  | some (Val.int v) => some v
  | _ => none

/-- Lines 89-96: the heading and the nested loop writing `table[r][c]`. -/
def printTable (table : Nat) (rows cols : Int) (h : Heap) (out : List String) :
    Option (List String) :=
  forUpTo rows (fun r o =>
    (forUpTo cols (fun c oc =>
      (readTableInt h table r c).map (fun v => oc ++ [toString v, " "]))
      (o ++ ["  Row ", toString r, ": "])).map (fun o1 => o1 ++ ["\n"]))
    (out ++ ["Dynamic 2D array:", "\n"])

/-- Lines 153-160: the heading and the nested loop writing `flat[r * cols + c]`. -/
def printFlat (flat : Nat) (rows cols : Int) (h : Heap) (out : List String) :
    Option (List String) :=
  forUpTo rows (fun r o =>
    (forUpTo cols (fun c oc =>
      (readFlatInt h flat cols r c).map (fun v => oc ++ [toString v, " "]))
      (o ++ ["  Row ", toString r, ": "])).map (fun o1 => o1 ++ ["\n"]))
    (out ++ ["Flat array as 2D:", "\n"])

/-- The function `twoDimensionalArrays` from line 36 on with its two print
loops, in the order of the source: the table is printed between its fill and
its release, the flat block between its fill and its release.  The other
`std::cout` statements write string literals only and are left out. -/
def twoDimensionalArraysPrinted (rows cols : Int) : Option (TDRun × List String) := do
  let (table, h1) ← allocTable rows cols Heap.empty
  let h2 ← fillTable table rows cols h1
  let out1 ← printTable table rows cols h2 []
  let h3 ← freeRows table rows h2
  let h4 ← h3.deleteArr table
  let (flat, h5) ← allocFlat rows cols h4
  let h6 ← fillFlat flat rows cols h5
  let out2 ← printFlat flat rows cols h6 out1
  let h7 ← h6.deleteArr flat
  some ({ table := table, tableAllocated := h1, tableFilled := h2, rowsFreed := h3,
          spineFreed := h4, flat := flat, flatAllocated := h5, flatFilled := h6,
          flatFreed := h7 }, out2)

/-- The addresses allocated in a log, in order. -/
def allocated (log : List Event) : List Nat :=
  log.filterMap (fun e => match e with
    | Event.alloc p _ => some p
    | Event.free _ => none)

/-- The addresses released in a log, in order. -/
def released (log : List Event) : List Nat :=
  log.filterMap (fun e => match e with
    | Event.alloc _ _ => none
    | Event.free p => some p)

/-! ## Facts about the free store -/

theorem checkInt_of_range {v : Int} (h1 : INT_MIN ≤ v) (h2 : v ≤ INT_MAX) :
    checkInt v = some v := by
  simp [checkInt, h1, h2]

theorem checkInt_eq_some {v w : Int} (h : checkInt v = some w) :
    w = v ∧ INT_MIN ≤ v ∧ v ≤ INT_MAX := by
  unfold checkInt at h
  split at h
  · rename_i hr
    simp only [Option.some.injEq] at h
    exact ⟨h.symm, hr.1, hr.2⟩
  · simp at h

theorem Heap.block_bounds {h : Heap} {p : Nat} {b : List Val} (hb : h.block p = some b) :
    0 < p ∧ p ≤ h.blocks.length ∧ h.blocks[p - 1]? = some (some b) := by
  unfold Heap.block at hb
  split at hb
  · simp at hb
  · rename_i hp
    split at hb
    · rename_i b1 hget
      simp only [Option.some.injEq] at hb
      subst hb
      have hlt : p - 1 < h.blocks.length := by
        by_contra hcon
        have hge : h.blocks.length ≤ p - 1 := by omega
        rw [List.getElem?_eq_none hge] at hget
        simp at hget
      have hp1 : 0 < p := Nat.pos_of_ne_zero hp
      exact ⟨hp1, by omega, hget⟩
    · simp at hb

theorem Heap.block_of_getElem? {h : Heap} {p : Nat} {b : List Val} (hp : 0 < p)
    (hget : h.blocks[p - 1]? = some (some b)) : h.block p = some b := by
  have hp0 : p ≠ 0 := Nat.pos_iff_ne_zero.mp hp
  unfold Heap.block
  rw [if_neg hp0, hget]

theorem Heap.block_set_of_ne (bs : List (Option (List Val))) (l : List Event) (l1 : List Event)
    (p q : Nat) (x : Option (List Val)) (hq : q ≠ p) (hp : 0 < p) :
    (Heap.mk (bs.set (p - 1) x) l).block q = (Heap.mk bs l1).block q := by
  unfold Heap.block
  by_cases hq0 : q = 0
  · simp [hq0]
  · simp only [hq0, if_false]
    have hne : p - 1 ≠ q - 1 := by omega
    rw [List.getElem?_set_ne hne]

theorem Heap.newArr_spec (h : Heap) {n : Int} (hn : 0 ≤ n) :
    ∃ h1, h.newArr n = some (h.blocks.length + 1, h1)
      ∧ h1.blocks.length = h.blocks.length + 1
      ∧ h1.block (h.blocks.length + 1) = some (List.replicate n.toNat Val.undef)
      ∧ (∀ q, q ≠ h.blocks.length + 1 → h1.block q = h.block q)
      ∧ h1.log = h.log ++ [Event.alloc (h.blocks.length + 1) n.toNat] := by
  refine ⟨⟨h.blocks ++ [some (List.replicate n.toNat Val.undef)],
      h.log ++ [Event.alloc (h.blocks.length + 1) n.toNat]⟩, ?_, ?_, ?_, ?_, rfl⟩
  · simp [Heap.newArr, not_lt.mpr hn]
  · simp
  · simp [Heap.block]
  · intro q hq
    unfold Heap.block
    by_cases hq0 : q = 0
    · simp [hq0]
    · simp only [hq0, if_false]
      by_cases hlt : q - 1 < h.blocks.length
      · rw [List.getElem?_append_left hlt]
      · have h1 : h.blocks.length ≤ q - 1 := by omega
        have h2 : (h.blocks ++ [some (List.replicate n.toNat Val.undef)]).length ≤ q - 1 := by
          simp only [List.length_append, List.length_singleton]
          omega
        rw [List.getElem?_eq_none h1, List.getElem?_eq_none h2]

theorem Heap.write_spec {h : Heap} {p : Nat} {b : List Val} {i : Int} (v : Val)
    (hb : h.block p = some b) (h0 : 0 ≤ i) (hi : i.toNat < b.length) :
    ∃ h1, h.write p i v = some h1
      ∧ h1.blocks.length = h.blocks.length
      ∧ h1.block p = some (b.set i.toNat v)
      ∧ (∀ q, q ≠ p → h1.block q = h.block q)
      ∧ h1.log = h.log := by
  obtain ⟨hp, hle, -⟩ := Heap.block_bounds hb
  have hlt : p - 1 < h.blocks.length := by omega
  refine ⟨⟨h.blocks.set (p - 1) (some (b.set i.toNat v)), h.log⟩, ?_, ?_, ?_, ?_, rfl⟩
  · simp [Heap.write, hb, h0, hi]
  · simp
  · apply Heap.block_of_getElem? hp
    simp [List.getElem?_set_self hlt]
  · intro q hq
    exact Heap.block_set_of_ne _ _ _ _ _ _ hq hp

theorem Heap.write_eq_some {h h1 : Heap} {p : Nat} {i : Int} {v : Val}
    (hw : h.write p i v = some h1) :
    ∃ b, h.block p = some b ∧ 0 ≤ i ∧ i.toNat < b.length := by
  unfold Heap.write at hw
  split at hw
  · rename_i b hb
    split at hw
    · rename_i hr
      exact ⟨b, hb, hr.1, hr.2⟩
    · simp at hw
  · simp at hw

theorem Heap.deleteArr_spec {h : Heap} {p : Nat} {b : List Val} (hb : h.block p = some b) :
    ∃ h1, h.deleteArr p = some h1
      ∧ h1.blocks.length = h.blocks.length
      ∧ h1.block p = none
      ∧ (∀ q, q ≠ p → h1.block q = h.block q)
      ∧ h1.log = h.log ++ [Event.free p] := by
  obtain ⟨hp, hle, -⟩ := Heap.block_bounds hb
  have hp0 : p ≠ 0 := Nat.pos_iff_ne_zero.mp hp
  have hlt : p - 1 < h.blocks.length := by omega
  refine ⟨⟨h.blocks.set (p - 1) none, h.log ++ [Event.free p]⟩, ?_, ?_, ?_, ?_, rfl⟩
  · simp [Heap.deleteArr, hb, hp0]
  · simp
  · unfold Heap.block
    simp [hp0, List.getElem?_set_self hlt]
  · intro q hq
    exact Heap.block_set_of_ne _ _ _ _ _ _ hq hp

theorem Heap.read_spec {h : Heap} {p : Nat} {b : List Val} {i : Int}
    (hb : h.block p = some b) (h0 : 0 ≤ i) : h.read p i = b[i.toNat]? := by
  simp [Heap.read, hb, h0]

/-! ## Facts about counting loops -/

theorem forLoop_spec {σ : Type} (body : Int → σ → Option σ) (n : Nat) (P : Nat → σ → Prop)
    (hstep : ∀ (k : Nat) (s : σ), k < n → P k s →
      ∃ s1, body (k : Int) s = some s1 ∧ P (k + 1) s1) :
    ∀ (d k : Nat) (s : σ), k + d = n → P k s →
      ∃ s1, forLoop body (n : Int) (d + 1) (k : Int) s = some s1 ∧ P n s1 := by
  intro d
  induction d with
  | zero =>
    intro k s hk hP
    have hkn : k = n := by omega
    subst hkn
    exact ⟨s, by simp [forLoop], hP⟩
  | succ d ih =>
    intro k s hk hP
    have hlt : k < n := by omega
    obtain ⟨s1, hbody, hP1⟩ := hstep k s hlt hP
    obtain ⟨s2, hrun, hP2⟩ := ih (k + 1) s1 (by omega) hP1
    refine ⟨s2, ?_, hP2⟩
    have hlt2 : (k : Int) < (n : Int) := by exact_mod_cast hlt
    rw [forLoop, if_pos hlt2, hbody, Option.some_bind]
    have hcast : ((k : Int) + 1) = ((k + 1 : Nat) : Int) := by push_cast; rfl
    rw [hcast]
    exact hrun

theorem forUpTo_spec {σ : Type} (body : Int → σ → Option σ) (n : Nat) (P : Nat → σ → Prop)
    (s : σ) (h0 : P 0 s)
    (hstep : ∀ (k : Nat) (s : σ), k < n → P k s →
      ∃ s1, body (k : Int) s = some s1 ∧ P (k + 1) s1) :
    ∃ s1, forUpTo (n : Int) body s = some s1 ∧ P n s1 := by
  have h := forLoop_spec body n P hstep n 0 s (by omega) h0
  simpa [forUpTo] using h

/-! ## The resize step -/

theorem DAState.wf_block {s : DAState} (hw : s.wf) :
    ∃ b, s.heap.block s.arr = some b ∧ (b.length : Int) = s.capacity := by
  obtain ⟨-, -, h⟩ := hw
  cases hb : s.heap.block s.arr with
  | none => simp [hb] at h
  | some b => exact ⟨b, rfl, by simpa [hb] using h⟩

theorem copyLoop_spec (s : DAState) (b : List Val) (newArr : Nat) (n : Nat) (h1 : Heap)
    (hne : newArr ≠ s.arr) (hcount : s.count = (n : Int)) (hn : n ≤ b.length)
    (hold : h1.block s.arr = some b)
    (hnew : ∃ nb, h1.block newArr = some nb ∧ b.length ≤ nb.length) :
    ∃ h2 nb, forUpTo s.count (copyElem s.arr newArr) { s with heap := h1 }
        = some { s with copied := s.copied + n, heap := h2 }
      ∧ h2.blocks.length = h1.blocks.length
      ∧ h2.log = h1.log
      ∧ (∀ q, q ≠ newArr → h2.block q = h1.block q)
      ∧ h2.block newArr = some nb
      ∧ (∀ nb1, h1.block newArr = some nb1 → nb.length = nb1.length)
      ∧ (∀ j, j < n → nb[j]? = b[j]?) := by
  obtain ⟨nb0, hnb0, hlen0⟩ := hnew
  have key := forUpTo_spec (copyElem s.arr newArr) n
    (fun k t => ∃ h2 nb, t = { s with copied := s.copied + k, heap := h2 }
      ∧ h2.blocks.length = h1.blocks.length
      ∧ h2.log = h1.log
      ∧ (∀ q, q ≠ newArr → h2.block q = h1.block q)
      ∧ h2.block newArr = some nb
      ∧ nb.length = nb0.length
      ∧ (∀ j, j < k → nb[j]? = b[j]?))
    { s with heap := h1 }
    ⟨h1, nb0, by simp, rfl, rfl, fun _ _ => rfl, hnb0, rfl, fun j hj => by omega⟩
    (by
      rintro k t hk ⟨h2, nb, rfl, hl2, hlog2, hfr2, hnb2, hnblen, hcopy⟩
      have hrd : h2.read s.arr (k : Int) = b[k]? := by
        rw [Heap.read_spec (b := b) (by rw [hfr2 _ hne.symm]; exact hold) (by omega)]
        simp
      have hkb : k < b.length := by omega
      rw [List.getElem?_eq_getElem hkb] at hrd
      obtain ⟨h3, hw3, hl3, hb3, hfr3, hlog3⟩ :=
        Heap.write_spec (i := (k : Int)) (b[k]) hnb2 (by omega) (by simp; omega)
      refine ⟨_, ?_, h3, nb.set k b[k], rfl, by omega, by rw [hlog3, hlog2], ?_, ?_, ?_, ?_⟩
      · simp [copyElem, hrd, hw3, Nat.add_assoc]
      · intro q hq
        rw [hfr3 q hq, hfr2 q hq]
      · simpa using hb3
      · simp [hnblen]
      · intro j hj
        by_cases hjk : j = k
        · subst hjk
          rw [List.getElem?_set_self (by omega), List.getElem?_eq_getElem hkb]
        · rw [List.getElem?_set_ne (by omega)]
          exact hcopy j (by omega))
  obtain ⟨t, hrun, h2, nb, rfl, hl2, hlog2, hfr2, hnb2, hnblen, hcopy⟩ := key
  refine ⟨h2, nb, ?_, hl2, hlog2, hfr2, hnb2, ?_, hcopy⟩
  · rw [← hcount] at hrun; exact hrun
  · intro nb1 h; rw [hnb0] at h; cases h; exact hnblen

theorem resizeTrace_spec (s : DAState) (hw : s.wf) (hr : s.capacity * 2 ≤ INT_MAX) :
    ∃ h1 h2 h3 nb b,
      resizeTrace s = some
        [ { s with heap := h1 },
          { s with copied := s.copied + s.count.toNat, heap := h2 },
          { s with copied := s.copied + s.count.toNat, heap := h3 },
          { s with copied := s.copied + s.count.toNat, heap := h3,
                   arr := s.heap.blocks.length + 1 },
          { capacity := s.capacity * 2, count := s.count, arr := s.heap.blocks.length + 1,
            copied := s.copied + s.count.toNat, heap := h3 } ]
      ∧ s.heap.block s.arr = some b
      ∧ h3.block (s.heap.blocks.length + 1) = some nb
      ∧ (nb.length : Int) = s.capacity * 2
      ∧ (∀ j, j < s.count.toNat → nb[j]? = b[j]?)
      ∧ h3.block s.arr = none
      ∧ (∀ q, q ≠ s.arr → q ≠ s.heap.blocks.length + 1 → h3.block q = s.heap.block q)
      ∧ h3.blocks.length = s.heap.blocks.length + 1
      ∧ h3.log = s.heap.log ++ [Event.alloc (s.heap.blocks.length + 1) (s.capacity * 2).toNat,
          Event.free s.arr] := by
  obtain ⟨b, hb, hblen⟩ := DAState.wf_block hw
  obtain ⟨hc0, hcc, -⟩ := hw
  obtain ⟨hp, hle, -⟩ := Heap.block_bounds hb
  have hcap0 : 0 ≤ s.capacity := by omega
  have hchk : checkInt (s.capacity * 2) = some (s.capacity * 2) :=
    checkInt_of_range (by unfold INT_MIN; omega) hr
  obtain ⟨h1, hnew, hl1, hb1, hfr1, hlog1⟩ := Heap.newArr_spec s.heap (n := s.capacity * 2) (by omega)
  have hne : s.heap.blocks.length + 1 ≠ s.arr := by omega
  obtain ⟨n, hn⟩ := Int.eq_ofNat_of_zero_le hc0
  have hnb : n ≤ b.length := by omega
  obtain ⟨h2, nb, hloop, hl2, hlog2, hfr2, hnb2, hnblen, hcopy⟩ :=
    copyLoop_spec s b (s.heap.blocks.length + 1) n h1 hne hn hnb
      (by rw [hfr1 _ hne.symm]; exact hb)
      ⟨_, hb1, by simp; omega⟩
  have hb2 : h2.block s.arr = some b := by rw [hfr2 _ hne.symm, hfr1 _ hne.symm]; exact hb
  obtain ⟨h3, hdel, hl3, hb3, hfr3, hlog3⟩ := Heap.deleteArr_spec hb2
  have hn' : s.count.toNat = n := by omega
  refine ⟨h1, h2, h3, nb, b, ?_, hb, ?_, ?_, ?_, hb3, ?_, by omega, ?_⟩
  · simp [resizeTrace, hchk, hnew, hloop, hdel, hn']
  · rw [hfr3 _ hne]; exact hnb2
  · have := hnblen _ hb1
    simp at this
    omega
  · rw [hn']; exact hcopy
  · intro q hq1 hq2
    rw [hfr3 q hq1, hfr2 q hq2, hfr1 q hq2]
  · rw [hlog3, hlog2, hlog1]; simp

theorem resize_spec (s : DAState) (hw : s.wf) (hr : s.capacity * 2 ≤ INT_MAX) :
    ∃ s1, resize s = some s1
      ∧ s1.capacity = s.capacity * 2
      ∧ s1.count = s.count
      ∧ s1.copied = s.copied + s.count.toNat
      ∧ s1.wf
      ∧ (∀ i : Int, 0 ≤ i → i < s.count →
          s1.heap.read s1.arr i = s.heap.read s.arr i ∧ (s.heap.read s.arr i).isSome) := by
  obtain ⟨h1, h2, h3, nb, b, htr, hb, hnb, hnblen, hcopy, -, -, -, -⟩ := resizeTrace_spec s hw hr
  obtain ⟨b1, hb1, hblen⟩ := DAState.wf_block hw
  rw [hb] at hb1
  cases hb1
  obtain ⟨hc0, hcc, -⟩ := hw
  refine ⟨⟨s.capacity * 2, s.count, s.heap.blocks.length + 1, s.copied + s.count.toNat, h3⟩,
    by simp [resize, htr], rfl, rfl, rfl, ?_, ?_⟩
  · refine ⟨hc0, by simp only; omega, ?_⟩
    simp only [hnb, Option.map_some', hnblen]
  · intro i hi0 hic
    simp only
    rw [Heap.read_spec hnb hi0, Heap.read_spec hb hi0]
    have hlt : i.toNat < s.count.toNat := by omega
    refine ⟨hcopy _ hlt, ?_⟩
    have hlt2 : i.toNat < b.length := by omega
    simp [List.getElem?_eq_getElem hlt2]

theorem resize_eq_some_range {s s1 : DAState} (h : resize s = some s1) :
    s.capacity * 2 ≤ INT_MAX := by
  unfold resize resizeTrace at h
  cases hc : checkInt (s.capacity * 2) with
  | none => simp [hc] at h
  | some v => exact (checkInt_eq_some hc).2.2

theorem resize_overflow (s : DAState) (h : INT_MAX < s.capacity * 2) : resize s = none := by
  have hc : checkInt (s.capacity * 2) = none := by
    unfold checkInt
    rw [if_neg]
    intro hr
    omega
  rw [resize, resizeTrace, Option.bind_eq_bind, hc]
  rfl

theorem append_spec (v : Int) (s : DAState) (hw : s.wf) (hlt : s.count < s.capacity)
    (hr : s.count + 1 ≤ INT_MAX) :
    ∃ h1, append v s = some { s with count := s.count + 1, heap := h1 }
      ∧ ({ s with count := s.count + 1, heap := h1 } : DAState).wf := by
  obtain ⟨b, hb, hblen⟩ := DAState.wf_block hw
  obtain ⟨hc0, hcc, -⟩ := hw
  obtain ⟨h1, hw1, hl1, hb1, hfr1, hlog1⟩ :=
    Heap.write_spec (i := s.count) (Val.int v) hb hc0 (by omega)
  have hchk : checkInt (s.count + 1) = some (s.count + 1) :=
    checkInt_of_range (by unfold INT_MIN; omega) hr
  refine ⟨h1, by simp [append, hw1, hchk], by simp only; omega, by simp only; omega, ?_⟩
  simp only [hb1, Option.map_some', List.length_set, hblen]

theorem cleanup_spec (s : DAState) (hlive : (s.heap.block s.arr).isSome = true) :
    ∃ s1, cleanup s = some s1
      ∧ s1.heap.block s.arr = none
      ∧ s1.heap.log = s.heap.log ++ [Event.free s.arr]
      ∧ s1.arr = 0
      ∧ s1.capacity = s.capacity
      ∧ s1.count = s.count
      ∧ cleanup s1 = some s1 := by
  obtain ⟨b, hb⟩ := Option.isSome_iff_exists.mp hlive
  obtain ⟨h1, hdel, -, hb1, -, hlog1⟩ := Heap.deleteArr_spec hb
  refine ⟨{ s with heap := h1, arr := 0 }, by simp [cleanup, cleanupTrace, hdel], hb1, hlog1,
    rfl, rfl, rfl, ?_⟩
  simp [cleanup, cleanupTrace, Heap.deleteArr]

theorem appendGrowing_spec (c0 v : Int) (s : DAState) (hinv : growthInv c0 s)
    (hr : 2 * (s.count + 1) ≤ INT_MAX) :
    ∃ s1, appendGrowing v s = some s1 ∧ s1.count = s.count + 1 ∧ growthInv c0 s1 := by
  obtain ⟨hw, hcap, hcop, hfull⟩ := hinv
  have hw' := hw
  obtain ⟨hc0, hcc, -⟩ := hw'
  have hmax : INT_MAX = 2147483647 := rfl
  by_cases hfullq : s.count = s.capacity
  · obtain ⟨s1, hres, hcap1, hcount1, hcop1, hw1, -⟩ := resize_spec s hw (by omega)
    obtain ⟨h2, happ, hw2⟩ := append_spec v s1 hw1 (by omega) (by omega)
    refine ⟨{ s1 with count := s1.count + 1, heap := h2 },
      by simp [appendGrowing, hfullq, hres, happ], by simp only; omega, hw2,
      by simp only; omega, ?_, ?_⟩
    · simp only
      rw [hcop1, hcap1]
      push_cast
      rw [Int.toNat_of_nonneg hc0]
      omega
    · right
      simp only
      omega
  · have hlt : s.count < s.capacity := by omega
    obtain ⟨h2, happ, hw2⟩ := append_spec v s hw hlt (by omega)
    refine ⟨{ s with count := s.count + 1, heap := h2 },
      by simp [appendGrowing, hfullq, happ], rfl, hw2, hcap, hcop, ?_⟩
    rcases hfull with h | h
    · exact Or.inl h
    · right
      simp only
      omega

theorem appendAll_spec (c0 : Int) (vs : List Int) :
    ∀ s : DAState, growthInv c0 s → 2 * (s.count + vs.length) ≤ INT_MAX →
      ∃ s1, appendAll vs s = some s1 ∧ s1.count = s.count + vs.length ∧ growthInv c0 s1 := by
  induction vs with
  | nil =>
    intro s hinv _
    exact ⟨s, rfl, by simp, hinv⟩
  | cons v vs ih =>
    intro s hinv hr
    have hlen : ((v :: vs).length : Int) = (vs.length : Int) + 1 := by simp
    rw [hlen] at hr
    obtain ⟨s1, hstep, hcount1, hinv1⟩ := appendGrowing_spec c0 v s hinv (by omega)
    obtain ⟨s2, hrest, hcount2, hinv2⟩ := ih s1 hinv1 (by rw [hcount1]; omega)
    refine ⟨s2, by simp [appendAll, hstep, hrest], ?_, hinv2⟩
    rw [hcount2, hcount1, hlen]
    omega

/-! ## The spine-plus-rows table -/

theorem SpineAt.readPtr_eq {h : Heap} {t n : Nat} (hs : SpineAt h t n) {i : Nat} (hi : i < n) :
    h.readPtr t (i : Int) = some (t + 1 + i) := by
  obtain ⟨sp, hsp, -, hcells⟩ := hs
  have hrd : h.read t (i : Int) = some (Val.ptr (t + 1 + i)) := by
    rw [Heap.read_spec hsp (by omega)]
    simpa using hcells i hi
  simp [Heap.readPtr, hrd]

theorem SpineAt.frameSpine {h h1 : Heap} {t n : Nat} (hs : SpineAt h t n)
    (hfr : h1.block t = h.block t) : SpineAt h1 t n := by
  obtain ⟨sp, hsp, hlen, hcells⟩ := hs
  exact ⟨sp, by rw [hfr]; exact hsp, hlen, hcells⟩

theorem allocTable_spec (h0 : Heap) (n m : Nat) :
    ∃ h1, allocTable (n : Int) (m : Int) h0 = some (h0.blocks.length + 1, h1)
      ∧ h1.blocks.length = h0.blocks.length + 1 + n
      ∧ SpineAt h1 (h0.blocks.length + 1) n
      ∧ (∀ i, i < n →
          h1.block (h0.blocks.length + 1 + 1 + i) = some (List.replicate m Val.undef))
      ∧ h1.log = h0.log ++ Event.alloc (h0.blocks.length + 1) n ::
          (List.range n).map (fun i => Event.alloc (h0.blocks.length + 1 + 1 + i) m) := by
  obtain ⟨ha, hnew, hla, hba, hfra, hloga⟩ := Heap.newArr_spec h0 (n := (n : Int)) (by omega)
  simp only [Int.toNat_ofNat] at hba hloga
  have key := forUpTo_spec
    (fun i hp => (hp.newArr (m : Int)).bind
      (fun x => x.2.write (h0.blocks.length + 1) i (Val.ptr x.1))) n
    (fun k h => h.blocks.length = h0.blocks.length + 1 + k
      ∧ (∃ sp, h.block (h0.blocks.length + 1) = some sp ∧ sp.length = n
          ∧ ∀ j, j < k → sp[j]? = some (Val.ptr (h0.blocks.length + 1 + 1 + j)))
      ∧ (∀ i, i < k →
          h.block (h0.blocks.length + 1 + 1 + i) = some (List.replicate m Val.undef))
      ∧ h.log = h0.log ++ Event.alloc (h0.blocks.length + 1) n ::
          (List.range k).map (fun i => Event.alloc (h0.blocks.length + 1 + 1 + i) m))
    ha
    ⟨by omega, ⟨_, hba, by simp, fun j hj => by omega⟩, fun i hi => by omega, by simp [hloga]⟩
    (by
      rintro k h hk ⟨hl, ⟨sp, hsp, hsplen, hspc⟩, hrows, hlog⟩
      obtain ⟨hb, hnewb, hlb, hbb, hfrb, hlogb⟩ := Heap.newArr_spec h (n := (m : Int)) (by omega)
      simp only [Int.toNat_ofNat] at hbb hlogb
      have hadr : h.blocks.length + 1 = h0.blocks.length + 1 + 1 + k := by omega
      rw [hadr] at hnewb hbb hfrb hlogb
      have hspb : hb.block (h0.blocks.length + 1) = some sp := by
        rw [hfrb _ (by omega)]; exact hsp
      obtain ⟨hc, hwc, hlc, hbc, hfrc, hlogc⟩ :=
        Heap.write_spec (i := (k : Int)) (Val.ptr (h0.blocks.length + 1 + 1 + k)) hspb (by omega)
          (by simp; omega)
      simp only [Int.toNat_ofNat] at hbc
      refine ⟨hc, by simp [hnewb, hwc], by omega, ⟨_, hbc, by simp [hsplen], ?_⟩, ?_, ?_⟩
      · intro j hj
        by_cases hjk : j = k
        · subst hjk
          rw [List.getElem?_set_self (by omega)]
        · rw [List.getElem?_set_ne (by omega)]
          exact hspc j (by omega)
      · intro i hi
        rw [hfrc _ (by omega)]
        by_cases hik : i = k
        · subst hik
          exact hbb
        · rw [hfrb _ (by omega)]
          exact hrows i (by omega)
      · rw [hlogc, hlogb, hlog, List.range_succ]
        simp)
  obtain ⟨h1, hrun, hl1, hsp1, hrows1, hlog1⟩ := key
  refine ⟨h1, ?_, hl1, ?_, hrows1, hlog1⟩
  · simp only [allocTable, hnew, Option.bind_eq_bind, Option.some_bind]
    rw [hrun]
    rfl
  · obtain ⟨sp, hsp, hlen, hc⟩ := hsp1
    exact ⟨sp, hsp, hlen, fun j hj => by rw [hc j hj]⟩

theorem cell_bound {n m r c : Nat} (hr : r < n) (hc : c < m) :
    (r : Int) * (m : Int) + (c : Int) + 1 ≤ (n : Int) * (m : Int) := by
  have h1 : r * m + c + 1 ≤ (r + 1) * m := by rw [Nat.succ_mul]; omega
  have h2 : (r + 1) * m ≤ n * m := Nat.mul_le_mul_right m hr
  have h3 : r * m + c + 1 ≤ n * m := le_trans h1 h2
  exact_mod_cast h3

theorem cellValue_spec {n m r c : Nat} (hr : r < n) (hc : c < m)
    (hmax : (n : Int) * (m : Int) ≤ INT_MAX) :
    cellValue (m : Int) (r : Int) (c : Int) = some ((r : Int) * (m : Int) + (c : Int) + 1) := by
  have hb := cell_bound hr hc
  have h0 : (0 : Int) ≤ (r : Int) * (m : Int) := by positivity
  have hmin : INT_MIN = -2147483648 := rfl
  have e1 : checkInt ((r : Int) * (m : Int)) = some ((r : Int) * (m : Int)) :=
    checkInt_of_range (by omega) (by omega)
  have e2 : checkInt ((r : Int) * (m : Int) + (c : Int)) = some ((r : Int) * (m : Int) + (c : Int)) :=
    checkInt_of_range (by omega) (by omega)
  have e3 : checkInt ((r : Int) * (m : Int) + (c : Int) + 1)
      = some ((r : Int) * (m : Int) + (c : Int) + 1) :=
    checkInt_of_range (by omega) (by omega)
  rw [cellValue, Option.bind_eq_bind, e1, Option.some_bind, e2, Option.some_bind, e3]

theorem flatIndex_spec {n m r c : Nat} (hr : r < n) (hc : c < m)
    (hmax : (n : Int) * (m : Int) ≤ INT_MAX) :
    flatIndex (m : Int) (r : Int) (c : Int) = some (((r * m + c : Nat) : Int)) := by
  have hb := cell_bound hr hc
  have h0 : (0 : Int) ≤ (r : Int) * (m : Int) := by positivity
  have hmin : INT_MIN = -2147483648 := rfl
  have e1 : checkInt ((r : Int) * (m : Int)) = some ((r : Int) * (m : Int)) :=
    checkInt_of_range (by omega) (by omega)
  have e2 : checkInt ((r : Int) * (m : Int) + (c : Int)) = some ((r : Int) * (m : Int) + (c : Int)) :=
    checkInt_of_range (by omega) (by omega)
  rw [flatIndex, Option.bind_eq_bind, e1, Option.some_bind, e2]
  push_cast
  rfl

theorem RowFilled.frameRow {h h1 : Heap} {t m i k : Nat} (hrow : RowFilled h t m i k)
    (hfr : h1.block (t + 1 + i) = h.block (t + 1 + i)) : RowFilled h1 t m i k := by
  obtain ⟨b, hb, hlen, hc⟩ := hrow
  exact ⟨b, by rw [hfr]; exact hb, hlen, hc⟩

theorem fillRow_spec (h : Heap) (t n m r : Nat) (hr : r < n)
    (hmax : (n : Int) * (m : Int) ≤ INT_MAX)
    (hsp : SpineAt h t n) (hrow : RowFilled h t m r 0) :
    ∃ h1, forUpTo (m : Int) (fun c hc => do
        let v ← cellValue (m : Int) (r : Int) c
        let row ← hc.readPtr t (r : Int)
        hc.write row c (Val.int v)) h = some h1
      ∧ h1.blocks.length = h.blocks.length
      ∧ h1.log = h.log
      ∧ (∀ q, q ≠ t + 1 + r → h1.block q = h.block q)
      ∧ RowFilled h1 t m r m := by
  have key := forUpTo_spec (fun c hc => do
        let v ← cellValue (m : Int) (r : Int) c
        let row ← hc.readPtr t (r : Int)
        hc.write row c (Val.int v)) m
    (fun k h1 => h1.blocks.length = h.blocks.length
      ∧ h1.log = h.log
      ∧ (∀ q, q ≠ t + 1 + r → h1.block q = h.block q)
      ∧ RowFilled h1 t m r k)
    h ⟨rfl, rfl, fun _ _ => rfl, hrow⟩
    (by
      rintro k h1 hk ⟨hl, hlog, hfr, b, hb, hblen, hcells⟩
      have hsp1 : SpineAt h1 t n := hsp.frameSpine (hfr t (by omega))
      obtain ⟨h2, hw2, hl2, hb2, hfr2, hlog2⟩ :=
        Heap.write_spec (i := (k : Int))
          (Val.int ((r : Int) * (m : Int) + (k : Int) + 1)) hb (by omega) (by simp; omega)
      simp only [Int.toNat_ofNat] at hb2
      refine ⟨h2, ?_, by omega, by rw [hlog2, hlog], ?_, _, hb2, by simp [hblen], ?_⟩
      · simp [cellValue_spec hr hk hmax, hsp1.readPtr_eq hr, hw2]
      · intro q hq
        rw [hfr2 q hq, hfr q hq]
      · intro j hj
        by_cases hjk : j = k
        · subst hjk
          rw [List.getElem?_set_self (by omega)]
        · rw [List.getElem?_set_ne (by omega)]
          exact hcells j (by omega))
  exact key

theorem fillTable_spec (h : Heap) (t n m : Nat) (hmax : (n : Int) * (m : Int) ≤ INT_MAX)
    (hsp : SpineAt h t n) (hrows : ∀ i, i < n → RowFilled h t m i 0) :
    ∃ h1, fillTable t (n : Int) (m : Int) h = some h1
      ∧ h1.blocks.length = h.blocks.length
      ∧ h1.log = h.log
      ∧ SpineAt h1 t n
      ∧ (∀ i, i < n → RowFilled h1 t m i m) := by
  have key := forUpTo_spec (fun r hr => forUpTo (m : Int) (fun c hc => do
        let v ← cellValue (m : Int) r c
        let row ← hc.readPtr t r
        hc.write row c (Val.int v)) hr) n
    (fun k h1 => h1.blocks.length = h.blocks.length
      ∧ h1.log = h.log
      ∧ SpineAt h1 t n
      ∧ (∀ i, i < n → RowFilled h1 t m i (if i < k then m else 0)))
    h ⟨rfl, rfl, hsp, fun i hi => by simpa using hrows i hi⟩
    (by
      rintro k h1 hk ⟨hl, hlog, hsp1, hrows1⟩
      have hrk : RowFilled h1 t m k 0 := by simpa using hrows1 k hk
      obtain ⟨h2, hrun, hl2, hlog2, hfr2, hrow2⟩ := fillRow_spec h1 t n m k hk hmax hsp1 hrk
      refine ⟨h2, hrun, by omega, by rw [hlog2, hlog], hsp1.frameSpine (hfr2 t (by omega)), ?_⟩
      intro i hi
      by_cases hik : i = k
      · subst hik
        simpa using hrow2
      · have hfr := hfr2 (t + 1 + i) (by omega)
        have := (hrows1 i hi).frameRow hfr
        by_cases hlt : i < k
        · have hlt1 : i < k + 1 := by omega
          simpa [hlt, hlt1] using this
        · have hlt1 : ¬ i < k + 1 := by omega
          simpa [hlt, hlt1] using this)
  obtain ⟨h1, hrun, hl, hlog, hsp1, hrows1⟩ := key
  exact ⟨h1, hrun, hl, hlog, hsp1, fun i hi => by simpa [hi] using hrows1 i hi⟩

theorem readTable_spec {h : Heap} {t n m r c : Nat} (hsp : SpineAt h t n)
    (hrow : RowFilled h t m r m) (hr : r < n) (hc : c < m) :
    readTable h t (r : Int) (c : Int)
      = some (Val.int ((r : Int) * (m : Int) + (c : Int) + 1)) := by
  obtain ⟨b, hb, hblen, hcells⟩ := hrow
  simp only [readTable, hsp.readPtr_eq hr, Option.bind_eq_bind, Option.some_bind]
  rw [Heap.read_spec hb (by omega)]
  simpa using hcells c hc

theorem freeRows_spec (h : Heap) (t n : Nat) (hsp : SpineAt h t n)
    (hlive : ∀ i, i < n → (h.block (t + 1 + i)).isSome = true) :
    ∃ h1, freeRows t (n : Int) h = some h1
      ∧ h1.blocks.length = h.blocks.length
      ∧ SpineAt h1 t n
      ∧ (∀ i, i < n → h1.block (t + 1 + i) = none)
      ∧ (∀ q, (q < t + 1 ∨ t + 1 + n ≤ q) → h1.block q = h.block q)
      ∧ h1.log = h.log ++ (List.range n).map (fun i => Event.free (t + 1 + i)) := by
  have key := forUpTo_spec (fun i hp => do
        let row ← hp.readPtr t i
        hp.deleteArr row) n
    (fun k h1 => h1.blocks.length = h.blocks.length
      ∧ SpineAt h1 t n
      ∧ (∀ i, i < k → h1.block (t + 1 + i) = none)
      ∧ (∀ q, (q < t + 1 ∨ t + 1 + k ≤ q) → h1.block q = h.block q)
      ∧ h1.log = h.log ++ (List.range k).map (fun i => Event.free (t + 1 + i)))
    h ⟨rfl, hsp, fun i hi => by omega, fun _ _ => rfl, by simp⟩
    (by
      rintro k h1 hk ⟨hl, hsp1, hdead, hfr, hlog⟩
      have hlk : (h1.block (t + 1 + k)).isSome = true := by
        rw [hfr _ (Or.inr (le_refl _))]; exact hlive k hk
      obtain ⟨b, hb⟩ := Option.isSome_iff_exists.mp hlk
      obtain ⟨h2, hdel, hl2, hb2, hfr2, hlog2⟩ := Heap.deleteArr_spec hb
      refine ⟨h2, by simp [hsp1.readPtr_eq hk, hdel], by omega, hsp1.frameSpine (hfr2 t (by omega)),
        ?_, ?_, ?_⟩
      · intro i hi
        by_cases hik : i = k
        · subst hik; exact hb2
        · rw [hfr2 _ (by omega)]; exact hdead i (by omega)
      · intro q hq
        rw [hfr2 q (by omega), hfr q (by omega)]
      · rw [hlog2, hlog, List.range_succ]
        simp)
  exact key

/-! ## The flat table -/

theorem fillFlatRow_spec (h : Heap) (f n m r : Nat) (hr : r < n)
    (hmax : (n : Int) * (m : Int) ≤ INT_MAX) (hfl : FlatFilled h f (n * m) (r * m)) :
    ∃ h1, forUpTo (m : Int) (fun c hc => do
        let v ← cellValue (m : Int) (r : Int) c
        let k ← flatIndex (m : Int) (r : Int) c
        hc.write f k (Val.int v)) h = some h1
      ∧ h1.blocks.length = h.blocks.length
      ∧ h1.log = h.log
      ∧ (∀ q, q ≠ f → h1.block q = h.block q)
      ∧ FlatFilled h1 f (n * m) ((r + 1) * m) := by
  have key := forUpTo_spec (fun c hc => do
        let v ← cellValue (m : Int) (r : Int) c
        let k ← flatIndex (m : Int) (r : Int) c
        hc.write f k (Val.int v)) m
    (fun k h1 => h1.blocks.length = h.blocks.length
      ∧ h1.log = h.log
      ∧ (∀ q, q ≠ f → h1.block q = h.block q)
      ∧ FlatFilled h1 f (n * m) (r * m + k))
    h ⟨rfl, rfl, fun _ _ => rfl, hfl⟩
    (by
      rintro k h1 hk ⟨hl, hlog, hfr, b, hb, hblen, hcells⟩
      have hbnd : r * m + k + 1 ≤ n * m := by exact_mod_cast cell_bound hr hk
      obtain ⟨h2, hw2, hl2, hb2, hfr2, hlog2⟩ :=
        Heap.write_spec (i := ((r * m + k : Nat) : Int))
          (Val.int ((r : Int) * (m : Int) + (k : Int) + 1)) hb (by omega)
          (by rw [Int.toNat_ofNat]; omega)
      simp only [Int.toNat_ofNat] at hb2
      refine ⟨h2, ?_, by omega, by rw [hlog2, hlog], ?_, _, hb2, by simp [hblen], ?_⟩
      · simp [cellValue_spec hr hk hmax, flatIndex_spec hr hk hmax]
        simpa using hw2
      · intro q hq
        rw [hfr2 q hq, hfr q hq]
      · intro j hj
        by_cases hjk : j = r * m + k
        · subst hjk
          rw [List.getElem?_set_self (by omega)]
          push_cast
          rfl
        · rw [List.getElem?_set_ne (by omega)]
          exact hcells j (by omega))
  obtain ⟨h1, hrun, hl, hlog, hfr, hfl1⟩ := key
  refine ⟨h1, hrun, hl, hlog, hfr, ?_⟩
  have e : (r + 1) * m = r * m + m := Nat.succ_mul r m
  rw [e]
  exact hfl1

theorem fillFlat_spec (h : Heap) (f n m : Nat) (hmax : (n : Int) * (m : Int) ≤ INT_MAX)
    (hfl : FlatFilled h f (n * m) 0) :
    ∃ h1, fillFlat f (n : Int) (m : Int) h = some h1
      ∧ h1.blocks.length = h.blocks.length
      ∧ h1.log = h.log
      ∧ (∀ q, q ≠ f → h1.block q = h.block q)
      ∧ FlatFilled h1 f (n * m) (n * m) := by
  have key := forUpTo_spec (fun r hr => forUpTo (m : Int) (fun c hc => do
        let v ← cellValue (m : Int) r c
        let k ← flatIndex (m : Int) r c
        hc.write f k (Val.int v)) hr) n
    (fun k h1 => h1.blocks.length = h.blocks.length
      ∧ h1.log = h.log
      ∧ (∀ q, q ≠ f → h1.block q = h.block q)
      ∧ FlatFilled h1 f (n * m) (k * m))
    h ⟨rfl, rfl, fun _ _ => rfl, by simpa using hfl⟩
    (by
      rintro k h1 hk ⟨hl, hlog, hfr, hfl1⟩
      obtain ⟨h2, hrun, hl2, hlog2, hfr2, hfl2⟩ := fillFlatRow_spec h1 f n m k hk hmax hfl1
      exact ⟨h2, hrun, by omega, by rw [hlog2, hlog],
        fun q hq => by rw [hfr2 q hq, hfr q hq], hfl2⟩)
  exact key

theorem readFlat_spec {h : Heap} {f n m r c : Nat} (hfl : FlatFilled h f (n * m) (n * m))
    (hr : r < n) (hc : c < m) (hmax : (n : Int) * (m : Int) ≤ INT_MAX) :
    readFlat h f (m : Int) (r : Int) (c : Int)
      = some (Val.int ((r : Int) * (m : Int) + (c : Int) + 1)) := by
  obtain ⟨b, hb, hblen, hcells⟩ := hfl
  have hbnd : r * m + c + 1 ≤ n * m := by exact_mod_cast cell_bound hr hc
  rw [readFlat, Option.bind_eq_bind, flatIndex_spec hr hc hmax, Option.some_bind,
    Heap.read_spec hb (by omega), Int.toNat_ofNat, hcells _ (by omega)]
  push_cast
  rfl

/-! ## The whole of `twoDimensionalArrays` -/

theorem tablePart_spec (h0 : Heap) (n m : Nat) (hmax : (n : Int) * (m : Int) ≤ INT_MAX) :
    ∃ h1 h2 h3 h4,
      tablePart (n : Int) (m : Int) h0 = some (h0.blocks.length + 1, h1, h2, h3, h4)
      ∧ h1.log = h0.log ++ Event.alloc (h0.blocks.length + 1) n ::
          (List.range n).map (fun i => Event.alloc (h0.blocks.length + 1 + 1 + i) m)
      ∧ h2.log = h1.log
      ∧ h3.log = h2.log ++ (List.range n).map (fun i => Event.free (h0.blocks.length + 1 + 1 + i))
      ∧ h4.log = h3.log ++ [Event.free (h0.blocks.length + 1)]
      ∧ SpineAt h2 (h0.blocks.length + 1) n
      ∧ (∀ i, i < n → RowFilled h2 (h0.blocks.length + 1) m i m)
      ∧ SpineAt h3 (h0.blocks.length + 1) n
      ∧ (∀ i, i < n → h3.block (h0.blocks.length + 1 + 1 + i) = none)
      ∧ h4.block (h0.blocks.length + 1) = none
      ∧ (∀ i, i < n → h4.block (h0.blocks.length + 1 + 1 + i) = none)
      ∧ h4.blocks.length = h0.blocks.length + 1 + n := by
  obtain ⟨h1, hrun1, hl1, hsp1, hrows1, hlog1⟩ := allocTable_spec h0 n m
  have hrows1' : ∀ i, i < n → RowFilled h1 (h0.blocks.length + 1) m i 0 :=
    fun i hi => ⟨_, hrows1 i hi, by simp, fun j hj => by omega⟩
  obtain ⟨h2, hrun2, hl2, hlog2, hsp2, hrows2⟩ :=
    fillTable_spec h1 (h0.blocks.length + 1) n m hmax hsp1 hrows1'
  have hlive : ∀ i, i < n → (h2.block (h0.blocks.length + 1 + 1 + i)).isSome = true := by
    intro i hi
    obtain ⟨b, hb, -, -⟩ := hrows2 i hi
    simp [hb]
  obtain ⟨h3, hrun3, hl3, hsp3, hdead3, hfr3, hlog3⟩ :=
    freeRows_spec h2 (h0.blocks.length + 1) n hsp2 hlive
  obtain ⟨sp, hspb, hsplen, hspc⟩ := hsp3
  obtain ⟨h4, hrun4, hl4, hb4, hfr4, hlog4⟩ := Heap.deleteArr_spec hspb
  refine ⟨h1, h2, h3, h4, ?_, hlog1, hlog2, hlog3, hlog4, hsp2, hrows2, ⟨sp, hspb, hsplen, hspc⟩,
    hdead3, hb4, ?_, by omega⟩
  · simp [tablePart, hrun1, hrun2, hrun3, hrun4]
  · intro i hi
    rw [hfr4 _ (by omega)]
    exact hdead3 i hi

theorem flatPart_spec (h0 : Heap) (n m : Nat) (hmax : (n : Int) * (m : Int) ≤ INT_MAX) :
    ∃ h1 h2 h3,
      flatPart (n : Int) (m : Int) h0 = some (h0.blocks.length + 1, h1, h2, h3)
      ∧ h1.log = h0.log ++ [Event.alloc (h0.blocks.length + 1) (n * m)]
      ∧ h2.log = h1.log
      ∧ h3.log = h2.log ++ [Event.free (h0.blocks.length + 1)]
      ∧ FlatFilled h2 (h0.blocks.length + 1) (n * m) (n * m)
      ∧ h3.block (h0.blocks.length + 1) = none
      ∧ (∀ q, q ≠ h0.blocks.length + 1 → h3.block q = h0.block q) := by
  have hnm : (n : Int) * (m : Int) = ((n * m : Nat) : Int) := by push_cast; rfl
  have hmin : INT_MIN = -2147483648 := rfl
  have hchk : checkInt ((n : Int) * (m : Int)) = some (((n * m : Nat) : Int)) := by
    rw [← hnm]
    exact checkInt_of_range (by rw [hnm]; omega) hmax
  obtain ⟨h1, hrun1, hl1, hb1, hfr1, hlog1⟩ :=
    Heap.newArr_spec h0 (n := ((n * m : Nat) : Int)) (by omega)
  rw [Int.toNat_ofNat] at hb1 hlog1
  have hfl1 : FlatFilled h1 (h0.blocks.length + 1) (n * m) 0 :=
    ⟨_, hb1, by simp, fun j hj => by omega⟩
  obtain ⟨h2, hrun2, hl2, hlog2, hfr2, hfl2⟩ :=
    fillFlat_spec h1 (h0.blocks.length + 1) n m hmax hfl1
  obtain ⟨b, hb, hblen, hcells⟩ := hfl2
  obtain ⟨h3, hrun3, hl3, hb3, hfr3, hlog3⟩ := Heap.deleteArr_spec hb
  refine ⟨h1, h2, h3, ?_, hlog1, hlog2, hlog3, ⟨b, hb, hblen, hcells⟩, hb3, ?_⟩
  · have halloc : allocFlat (n : Int) (m : Int) h0 = some (h0.blocks.length + 1, h1) := by
      rw [allocFlat, Option.bind_eq_bind, hchk, Option.some_bind, hrun1]
    simp [flatPart, halloc, hrun2, hrun3]
  · intro q hq
    rw [hfr3 q hq, hfr2 q hq, hfr1 q hq]

theorem flatPart_range {rows cols : Int} {h0 : Heap} {x : Nat × Heap × Heap × Heap}
    (h : flatPart rows cols h0 = some x) : rows * cols ≤ INT_MAX := by
  unfold flatPart allocFlat at h
  cases hc : checkInt (rows * cols) with
  | none => simp [hc] at h
  | some v => exact (checkInt_eq_some hc).2.2

theorem run_range {rows cols : Int} {run : TDRun}
    (h : twoDimensionalArraysWith rows cols = some run) : rows * cols ≤ INT_MAX := by
  unfold twoDimensionalArraysWith at h
  cases ht : tablePart rows cols Heap.empty with
  | none => simp [ht] at h
  | some x =>
    cases hf : flatPart rows cols x.2.2.2.2 with
    | none => simp [ht, hf] at h
    | some y => exact flatPart_range hf

theorem run_spec (n m : Nat) (hmax : (n : Int) * (m : Int) ≤ INT_MAX) :
    ∃ run, twoDimensionalArraysWith (n : Int) (m : Int) = some run
      ∧ run.table = 1
      ∧ run.flat = n + 2
      ∧ run.tableAllocated.log
          = Event.alloc 1 n :: (List.range n).map (fun i => Event.alloc (i + 2) m)
      ∧ run.tableFilled.log = run.tableAllocated.log
      ∧ run.rowsFreed.log
          = run.tableFilled.log ++ (List.range n).map (fun i => Event.free (i + 2))
      ∧ run.spineFreed.log = run.rowsFreed.log ++ [Event.free 1]
      ∧ run.flatAllocated.log = run.spineFreed.log ++ [Event.alloc (n + 2) (n * m)]
      ∧ run.flatFilled.log = run.flatAllocated.log
      ∧ run.flatFreed.log = run.flatFilled.log ++ [Event.free (n + 2)]
      ∧ SpineAt run.tableFilled 1 n
      ∧ (∀ i, i < n → RowFilled run.tableFilled 1 m i m)
      ∧ SpineAt run.rowsFreed 1 n
      ∧ (∀ i, i < n → run.rowsFreed.block (i + 2) = none)
      ∧ run.spineFreed.block 1 = none
      ∧ FlatFilled run.flatFilled (n + 2) (n * m) (n * m)
      ∧ (∀ q, run.flatFreed.block q = none) := by
  obtain ⟨h1, h2, h3, h4, hrunT, hlog1, hlog2, hlog3, hlog4, hsp2, hrows2, hsp3, hdead3, hb4,
    hdead4, hl4⟩ := tablePart_spec Heap.empty n m hmax
  obtain ⟨h5, h6, h7, hrunF, hlog5, hlog6, hlog7, hfl6, hb7, hfr7⟩ := flatPart_spec h4 n m hmax
  have hE : Heap.empty.blocks.length = 0 := rfl
  have hElog : Heap.empty.log = [] := rfl
  rw [hE] at hrunT hlog1 hlog3 hlog4 hsp2 hrows2 hsp3 hdead3 hb4 hdead4 hl4
  rw [hl4] at hrunF hlog5 hlog7 hfl6 hb7 hfr7
  have ea : 0 + 1 + n + 1 = n + 2 := by omega
  have eb : ∀ i, 0 + 1 + 1 + i = i + 2 := fun i => by omega
  simp only [ea, eb, Nat.zero_add, hElog, List.nil_append] at *
  refine ⟨⟨1, h1, h2, h3, h4, n + 2, h5, h6, h7⟩, ?_, rfl, rfl, hlog1, hlog2, hlog3, hlog4, hlog5,
    hlog6, hlog7, hsp2, hrows2, hsp3, hdead3, hb4, hfl6, ?_⟩
  · simp [twoDimensionalArraysWith, hrunT, hrunF]
  · intro q
    by_cases hq : q = n + 2
    · rw [hq]; exact hb7
    · rw [hfr7 q hq]
      by_cases hq1 : q = 1
      · rw [hq1]; exact hb4
      · by_cases hq0 : q = 0
        · rw [hq0]; rfl
        · by_cases hlt : q < n + 2
          · have := hdead4 (q - 2) (by omega)
            have e : q - 2 + 2 = q := by omega
            rw [e] at this
            exact this
          · cases hb : h4.block q with
            | none => rfl
            | some b =>
              have := (Heap.block_bounds hb).2.1
              omega

/-! ## Facts about the console output -/

theorem intersperse_concat {α : Type} (sep a : α) :
    ∀ l : List α, l ≠ [] → (l ++ [a]).intersperse sep = l.intersperse sep ++ [sep, a]
  | [], h => absurd rfl h
  | [x], _ => rfl
  | x :: y :: l, _ => by
    have ih := intersperse_concat sep a (y :: l) (by simp)
    simp only [List.cons_append] at ih ⊢
    rw [List.intersperse_cons₂, ih, List.intersperse_cons₂]
    rfl

theorem Heap.readInt_spec {h : Heap} {arr : Nat} {xs : List Int} {rest : List Val} {k : Nat}
    (hb : h.block arr = some (ints xs ++ rest)) (hk : k < xs.length) :
    h.readInt arr (k : Int) = some (xs.get ⟨k, hk⟩) := by
  have hrd : h.read arr (k : Int) = some (Val.int (xs.get ⟨k, hk⟩)) := by
    rw [Heap.read_spec hb (by omega), Int.toNat_ofNat,
      List.getElem?_append_left (by simpa [ints] using hk)]
    simp [ints, List.getElem?_eq_getElem hk]
  simp [Heap.readInt, hrd]

theorem printArray_spec (h : Heap) (arr : Nat) (xs : List Int) (rest : List Val) (n : Nat)
    (capacity : Int) (out : List String)
    (hb : h.block arr = some (ints xs ++ rest)) (hn : n ≤ xs.length)
    (hmax : (n : Int) ≤ INT_MAX) :
    printArray h arr (n : Int) capacity out
      = some (out ++ ["  ["] ++ ((xs.take n).map toString).intersperse ", "
          ++ ["]  (count=", toString (n : Int), ", capacity=", toString capacity, ")", "\n"]) := by
  have hmin : INT_MIN = -2147483648 := rfl
  have hlast : checkInt ((n : Int) - 1) = some ((n : Int) - 1) :=
    checkInt_of_range (by omega) (by omega)
  have key := forUpTo_spec (fun i o => do
      let v ← h.readInt arr i
      let o1 := o ++ [toString v]
      let last ← checkInt ((n : Int) - 1)
      if i < last then some (o1 ++ [", "]) else some o1) n
    (fun k o => o = out ++ ["  ["] ++ ((xs.take k).map toString).intersperse ", "
      ++ (if 0 < k ∧ k < n then [", "] else []))
    (out ++ ["  ["]) (by simp)
    (by
      rintro k o hk rfl
      have hkx : k < xs.length := by omega
      have htake : xs.take (k + 1) = xs.take k ++ [xs.get ⟨k, hkx⟩] := by
        rw [List.take_succ, List.getElem?_eq_getElem hkx]
        rfl
      refine ⟨_, ?_, rfl⟩
      beta_reduce
      simp only [Option.bind_eq_bind]
      rw [Heap.readInt_spec hb hkx, Option.some_bind, hlast,
        Option.some_bind, htake, List.map_append, List.map_singleton]
      by_cases hk0 : k = 0
      · subst hk0
        by_cases h1 : 1 < n
        · have : ((0 : Nat) : Int) < (n : Int) - 1 := by omega
          simp [this, h1]
        · have : ¬ ((0 : Nat) : Int) < (n : Int) - 1 := by omega
          simp [this, h1]
      · have hne : (xs.take k).map (fun x => toString x) ≠ [] := by
          intro hnil
          have hl := congrArg List.length hnil
          rw [List.length_map, List.length_take, List.length_nil] at hl
          omega
        have hpos : 0 < k := Nat.pos_of_ne_zero hk0
        rw [intersperse_concat ", " _ _ hne]
        by_cases h1 : k + 1 < n
        · have : (k : Int) < (n : Int) - 1 := by omega
          simp [this, h1, hpos, hk]
        · have : ¬ (k : Int) < (n : Int) - 1 := by omega
          simp [this, h1, hpos, hk])
  obtain ⟨o, hrun, ho⟩ := key
  rw [printArray, Option.bind_eq_bind, hrun, Option.some_bind, ho]
  simp

theorem printed_iff (rows cols : Int) (run : TDRun) (out : List String) :
    twoDimensionalArraysPrinted rows cols = some (run, out) ↔
      twoDimensionalArraysWith rows cols = some run
      ∧ ∃ out1, printTable run.table rows cols run.tableFilled [] = some out1
          ∧ printFlat run.flat rows cols run.flatFilled out1 = some out := by
  simp only [twoDimensionalArraysPrinted, twoDimensionalArraysWith, tablePart, flatPart,
    Option.bind_eq_bind, Option.bind_eq_some, Option.some.injEq, Prod.mk.injEq, Prod.exists]
  constructor
  · rintro ⟨t, h1, ha, h2, hf, o1, hp1, h3, hfr, h4, hd, f, h5, haf, h6, hff, o2, hp2, h7, hd2,
      rfl, rfl⟩
    exact ⟨⟨t, h1, h2, h3, h4, ⟨t, h1, ha, h2, hf, h3, hfr, h4, hd, rfl, rfl, rfl, rfl, rfl⟩,
      f, h5, h6, h7, ⟨f, h5, haf, h6, hff, h7, hd2, rfl, rfl, rfl, rfl⟩, rfl⟩, o1, hp1, hp2⟩
  · rintro ⟨⟨t, h1, h2, h3, h4, ⟨t', h1', ha, h2', hf, h3', hfr, h4', hd, rfl, rfl, rfl, rfl, rfl⟩,
      f, h5, h6, h7, ⟨f', h5', haf, h6', hff, h7', hd2, rfl, rfl, rfl, rfl⟩, rfl⟩, o1, hp1, hp2⟩
    exact ⟨_, _, ha, _, hf, o1, hp1, _, hfr, _, hd, _, _, haf, _, hff, out, hp2, _, hd2, rfl, rfl⟩

theorem printTable_some (h : Heap) (t n m : Nat) (out : List String)
    (hsp : SpineAt h t n) (hrows : ∀ i, i < n → RowFilled h t m i m) :
    ∃ o, printTable t (n : Int) (m : Int) h out = some o := by
  have key := forUpTo_spec (fun r o =>
      (forUpTo (m : Int) (fun c oc =>
        (readTableInt h t r c).map (fun v => oc ++ [toString v, " "]))
        (o ++ ["  Row ", toString r, ": "])).map (fun o1 => o1 ++ ["\n"])) n
    (fun _ _ => True) (out ++ ["Dynamic 2D array:", "\n"]) trivial
    (by
      intro r o hr _
      have inner := forUpTo_spec (fun c oc =>
          (readTableInt h t (r : Int) c).map (fun v => oc ++ [toString v, " "])) m
        (fun _ _ => True) (o ++ ["  Row ", toString (r : Int), ": "]) trivial
        (by
          intro c oc hc _
          have hrd := readTable_spec hsp (hrows r hr) hr hc
          exact ⟨oc ++ [toString ((r : Int) * (m : Int) + (c : Int) + 1), " "],
            by simp only [readTableInt, hrd, Option.map_some'], trivial⟩)
      obtain ⟨o1, hrun, -⟩ := inner
      exact ⟨o1 ++ ["\n"], by simp only [hrun, Option.map_some'], trivial⟩)
  obtain ⟨o, hrun, -⟩ := key
  exact ⟨o, hrun⟩

theorem printFlat_some (h : Heap) (f n m : Nat) (out : List String)
    (hmax : (n : Int) * (m : Int) ≤ INT_MAX) (hfl : FlatFilled h f (n * m) (n * m)) :
    ∃ o, printFlat f (n : Int) (m : Int) h out = some o := by
  have key := forUpTo_spec (fun r o =>
      (forUpTo (m : Int) (fun c oc =>
        (readFlatInt h f (m : Int) r c).map (fun v => oc ++ [toString v, " "]))
        (o ++ ["  Row ", toString r, ": "])).map (fun o1 => o1 ++ ["\n"])) n
    (fun _ _ => True) (out ++ ["Flat array as 2D:", "\n"]) trivial
    (by
      intro r o hr _
      have inner := forUpTo_spec (fun c oc =>
          (readFlatInt h f (m : Int) (r : Int) c).map (fun v => oc ++ [toString v, " "])) m
        (fun _ _ => True) (o ++ ["  Row ", toString (r : Int), ": "]) trivial
        (by
          intro c oc hc _
          have hrd := readFlat_spec hfl hr hc hmax
          exact ⟨oc ++ [toString ((r : Int) * (m : Int) + (c : Int) + 1), " "],
            by simp only [readFlatInt, hrd, Option.map_some'], trivial⟩)
      obtain ⟨o1, hrun, -⟩ := inner
      exact ⟨o1 ++ ["\n"], by simp only [hrun, Option.map_some'], trivial⟩)
  obtain ⟨o, hrun, -⟩ := key
  exact ⟨o, hrun⟩

theorem printed_some (n m : Nat) (hmax : (n : Int) * (m : Int) ≤ INT_MAX) :
    ∃ run out, twoDimensionalArraysPrinted (n : Int) (m : Int) = some (run, out)
      ∧ twoDimensionalArraysWith (n : Int) (m : Int) = some run := by
  obtain ⟨run, hrun, htable, hflat, -, -, -, -, -, -, -, hsp, hrowsF, -, -, -, hfl, -⟩ :=
    run_spec n m hmax
  rw [← htable] at hsp hrowsF
  rw [← hflat] at hfl
  obtain ⟨o1, hp1⟩ := printTable_some run.tableFilled run.table n m [] hsp hrowsF
  obtain ⟨o2, hp2⟩ := printFlat_some run.flatFilled run.flat n m o1 hmax hfl
  exact ⟨run, o2, (printed_iff _ _ _ _).mpr ⟨hrun, o1, hp1, hp2⟩, hrun⟩

/-! ## Allocator logs -/

theorem allocated_append (l1 l2 : List Event) :
    allocated (l1 ++ l2) = allocated l1 ++ allocated l2 := by
  simp [allocated, List.filterMap_append]

theorem released_append (l1 l2 : List Event) :
    released (l1 ++ l2) = released l1 ++ released l2 := by
  simp [released, List.filterMap_append]

theorem allocated_map_alloc (g c : Nat → Nat) (l : List Nat) :
    allocated (l.map (fun i => Event.alloc (g i) (c i))) = l.map g := by
  induction l with
  | nil => rfl
  | cons a l ih =>
    rw [List.map_cons, List.map_cons, ← ih]
    rfl

theorem released_map_alloc (g c : Nat → Nat) (l : List Nat) :
    released (l.map (fun i => Event.alloc (g i) (c i))) = [] := by
  induction l with
  | nil => rfl
  | cons a l ih =>
    rw [List.map_cons, ← ih]
    rfl

theorem allocated_map_free (g : Nat → Nat) (l : List Nat) :
    allocated (l.map (fun i => Event.free (g i))) = [] := by
  induction l with
  | nil => rfl
  | cons a l ih =>
    rw [List.map_cons, ← ih]
    rfl

theorem released_map_free (g : Nat → Nat) (l : List Nat) :
    released (l.map (fun i => Event.free (g i))) = l.map g := by
  induction l with
  | nil => rfl
  | cons a l ih =>
    rw [List.map_cons, List.map_cons, ← ih]
    rfl

theorem rowAddresses_nodup (n : Nat) :
    (1 :: (List.range n).map (fun i => i + 2) ++ [n + 2]).Nodup := by
  have hinj : Function.Injective (fun i : Nat => i + 2) := fun a b hab => by
    simp only at hab
    omega
  have h1 : ((List.range n).map (fun i => i + 2)).Nodup := (List.nodup_range n).map hinj
  rw [List.cons_append, List.nodup_cons]
  refine ⟨?_, ?_⟩
  · simp only [List.mem_append, List.mem_map, List.mem_range, List.mem_singleton, not_or]
    exact ⟨fun ⟨a, _, ha⟩ => by omega, by omega⟩
  · rw [List.nodup_append]
    refine ⟨h1, List.nodup_singleton _, ?_⟩
    intro a ha hb
    simp only [List.mem_map, List.mem_range] at ha
    simp only [List.mem_singleton] at hb
    obtain ⟨i, hi, rfl⟩ := ha
    omega

theorem run_log (n m : Nat) (run : TDRun) (hmax : (n : Int) * (m : Int) ≤ INT_MAX)
    (hrun : twoDimensionalArraysWith (n : Int) (m : Int) = some run) :
    allocated run.spineFreed.log = 1 :: (List.range n).map (fun i => i + 2)
    ∧ released run.spineFreed.log = (List.range n).map (fun i => i + 2) ++ [1]
    ∧ allocated run.flatFreed.log = 1 :: (List.range n).map (fun i => i + 2) ++ [n + 2]
    ∧ released run.flatFreed.log = (List.range n).map (fun i => i + 2) ++ [1] ++ [n + 2]
    ∧ run.flat = n + 2
    ∧ (∀ q, run.flatFreed.block q = none) := by
  obtain ⟨run1, hrun1, -, hflat, hlog1, hlog2, hlog3, hlog4, hlog5, hlog6, hlog7, -, -, -, -, -,
    -, hdead⟩ := run_spec n m hmax
  rw [hrun] at hrun1
  cases hrun1
  have ha1 : allocated run.tableAllocated.log = 1 :: (List.range n).map (fun i => i + 2) := by
    rw [hlog1]
    show allocated ([Event.alloc 1 n] ++ _) = _
    rw [allocated_append, allocated_map_alloc (fun i => i + 2) (fun _ => m)]
    rfl
  have hr1 : released run.tableAllocated.log = [] := by
    rw [hlog1]
    show released ([Event.alloc 1 n] ++ _) = _
    rw [released_append, released_map_alloc (fun i => i + 2) (fun _ => m)]
    rfl
  have ha4 : allocated run.spineFreed.log = 1 :: (List.range n).map (fun i => i + 2) := by
    rw [hlog4, hlog3, hlog2, allocated_append, allocated_append, ha1,
      allocated_map_free (fun i => i + 2)]
    simp [allocated]
  have hr4 : released run.spineFreed.log = (List.range n).map (fun i => i + 2) ++ [1] := by
    rw [hlog4, hlog3, hlog2, released_append, released_append, hr1,
      released_map_free (fun i => i + 2)]
    simp [released]
  refine ⟨ha4, hr4, ?_, ?_, hflat, hdead⟩
  · rw [hlog7, hlog6, hlog5, allocated_append, allocated_append, ha4]
    simp [allocated]
  · rw [hlog7, hlog6, hlog5, released_append, released_append, hr4]
    simp [released]

theorem flatIndex_eq_some {cols r c k : Int} (h : flatIndex cols r c = some k) :
    k = r * cols + c ∧ INT_MIN ≤ r * cols + c ∧ r * cols + c ≤ INT_MAX := by
  unfold flatIndex at h
  cases h1 : checkInt (r * cols) with
  | none => simp [h1] at h
  | some a =>
    rw [Option.bind_eq_bind, h1, Option.some_bind] at h
    obtain ⟨rfl, -, -⟩ := checkInt_eq_some h1
    obtain ⟨rfl, h2, h3⟩ := checkInt_eq_some h
    exact ⟨rfl, h2, h3⟩

theorem flatIndex_of_range {cols r c : Int} (h1 : 0 ≤ r * cols) (h2 : 0 ≤ c)
    (h3 : r * cols + c ≤ INT_MAX) : flatIndex cols r c = some (r * cols + c) := by
  have hmin : INT_MIN = -2147483648 := rfl
  have e1 : checkInt (r * cols) = some (r * cols) := checkInt_of_range (by omega) (by omega)
  have e2 : checkInt (r * cols + c) = some (r * cols + c) :=
    checkInt_of_range (by omega) h3
  rw [flatIndex, Option.bind_eq_bind, e1, Option.some_bind, e2]

theorem offset_lt {rows cols r c : Int} (hr0 : 0 ≤ r) (hr : r < rows) (hc0 : 0 ≤ c)
    (hc : c < cols) : 0 ≤ r * cols ∧ r * cols + c < rows * cols := by
  have h1 : 0 ≤ r * cols := mul_nonneg hr0 (by omega)
  have h2 : (r + 1) * cols ≤ rows * cols := mul_le_mul_of_nonneg_right (by omega) (by omega)
  have h3 : (r + 1) * cols = r * cols + cols := by ring
  exact ⟨h1, by omega⟩

theorem offset_inj {cols r c r1 c1 : Int} (hc0 : 0 ≤ c) (hc : c < cols) (hd0 : 0 ≤ c1)
    (hd : c1 < cols) (h : r * cols + c = r1 * cols + c1) : r = r1 ∧ c = c1 := by
  have hr : r = r1 := by
    rcases lt_trichotomy r r1 with hlt | heq | hgt
    · exfalso
      have h2 : (r + 1) * cols ≤ r1 * cols := mul_le_mul_of_nonneg_right (by omega) (by omega)
      have h3 : (r + 1) * cols = r * cols + cols := by ring
      omega
    · exact heq
    · exfalso
      have h2 : (r1 + 1) * cols ≤ r * cols := mul_le_mul_of_nonneg_right (by omega) (by omega)
      have h3 : (r1 + 1) * cols = r1 * cols + cols := by ring
      omega
  subst hr
  exact ⟨rfl, by omega⟩

theorem offset_surj {rows cols k : Int} (hcols : 0 ≤ cols) (hk0 : 0 ≤ k)
    (hk : k < rows * cols) :
    0 ≤ k / cols ∧ k / cols < rows ∧ 0 ≤ k % cols ∧ k % cols < cols
      ∧ k / cols * cols + k % cols = k := by
  have hpos : 0 < cols := by
    rcases eq_or_lt_of_le hcols with h0 | h0
    · rw [← h0] at hk
      simp at hk
      omega
    · exact h0
  refine ⟨Int.ediv_nonneg hk0 hcols, Int.ediv_lt_of_lt_mul hpos hk,
    Int.emod_nonneg _ (by omega), Int.emod_lt_of_pos _ hpos, ?_⟩
  have := Int.ediv_add_emod k cols
  rw [mul_comm] at this
  exact this

/-! ## The claims -/

/-- C1 (trace of `dynamicArrays`): starting from capacity 4 and count 0, the
appends of 10, 20, 30, 40 give count 4, capacity 4, elements [10,20,30,40]; the
resize step followed by the append of 50 gives count 5, capacity 8, elements
[10,20,30,40,50]; the appends of 60 and 70, with no further resize, end in
count 7, capacity 8, elements [10,20,30,40,50,60,70].  Each entry is
(statement group, count, capacity, elements). -/
theorem dynamicArrays_trace :
    dynamicArrays.map (fun t => t.map (fun p => (p.1, p.2.count, p.2.capacity, elements p.2))) =
      some [ (Label.created, 0, 4, some []),
        (Label.appended 10, 1, 4, some (ints [10])),
        (Label.appended 20, 2, 4, some (ints [10, 20])),
        (Label.appended 30, 3, 4, some (ints [10, 20, 30])),
        (Label.appended 40, 4, 4, some (ints [10, 20, 30, 40])),
        (Label.resizing, 4, 4, some (ints [10, 20, 30, 40])),
        (Label.resizing, 4, 4, some (ints [10, 20, 30, 40])),
        (Label.resizing, 4, 4, none),
        (Label.resizing, 4, 4, some (ints [10, 20, 30, 40])),
        (Label.resizing, 4, 8, some (ints [10, 20, 30, 40])),
        (Label.appended 50, 5, 8, some (ints [10, 20, 30, 40, 50])),
        (Label.appended 60, 6, 8, some (ints [10, 20, 30, 40, 50, 60])),
        (Label.appended 70, 7, 8, some (ints [10, 20, 30, 40, 50, 60, 70])),
        (Label.cleaning, 7, 8, none),
        (Label.cleaning, 7, 8, none) ] := by
  rfl

/-- C2, as stated, fails: the buffer created with capacity 0 and count 0 is
well formed, and the resize step leaves its capacity at 0, not at
`max 1 (2 * 0) = 1`. -/
theorem resize_zero_capacity_stays_zero :
    ∃ s s1, create 0 Heap.empty = some s ∧ s.wf ∧ s.capacity = 0 ∧ s.count = 0
      ∧ resize s = some s1 ∧ s1.capacity = 0 ∧ s1.capacity ≠ max 1 (2 * s.capacity) :=
  ⟨_, _, rfl, by decide, by decide, by decide, rfl, by decide, by decide⟩

/-- C2, amended: on every well-formed buffer whose doubled capacity is
representable, the resize step yields a buffer of capacity `2 * c` with the
count unchanged; this is `max 1 (2 * c)` when `c ≥ 1`, and `0` when `c = 0`. -/
theorem resize_doubles_capacity (s : DAState) (hw : s.wf) (hr : s.capacity * 2 ≤ INT_MAX) :
    ∃ s1, resize s = some s1 ∧ s1.capacity = 2 * s.capacity ∧ s1.count = s.count
      ∧ (1 ≤ s.capacity → s1.capacity = max 1 (2 * s.capacity))
      ∧ (s.capacity = 0 → s1.capacity = 0) := by
  obtain ⟨s1, hres, hcap, hcount, -, -, -⟩ := resize_spec s hw hr
  refine ⟨s1, hres, by omega, hcount, ?_, ?_⟩
  · intro h1
    rw [hcap, max_eq_right (by omega)]
    omega
  · intro h0
    omega

/-- Witness of C2 (amended): the full buffer of `dynamicArrays` (capacity 4,
count 4) grows to capacity 8 with count 4. -/
theorem resize_doubles_capacity_witness :
    ∃ s1, resize fullBuffer = some s1 ∧ s1.capacity = 2 * 4 ∧ s1.count = 4
      ∧ ((1 : Int) ≤ 4 → s1.capacity = max 1 (2 * 4))
      ∧ ((4 : Int) = 0 → s1.capacity = 0) :=
  resize_doubles_capacity fullBuffer (by decide) (by decide)

/-- C3 (order preservation): on every well-formed buffer the resize step
completes whenever the doubled capacity is representable, and whenever it
completes, every index `i` in `[0, count)` of the new block holds the element
that index `i` of the old block held. -/
theorem resize_preserves_elements (s : DAState) (hw : s.wf) :
    (s.capacity * 2 ≤ INT_MAX → (resize s).isSome = true)
    ∧ ∀ s1, resize s = some s1 → ∀ i : Int, 0 ≤ i → i < s.count →
        (s.heap.read s.arr i).isSome = true
        ∧ s1.heap.read s1.arr i = s.heap.read s.arr i := by
  constructor
  · intro hr
    obtain ⟨s1, hres, -⟩ := resize_spec s hw hr
    simp [hres]
  · intro s1 hres i hi0 hic
    obtain ⟨s2, hres2, -, -, -, -, hread⟩ := resize_spec s hw (resize_eq_some_range hres)
    rw [hres] at hres2
    cases hres2
    exact ⟨(hread i hi0 hic).2, (hread i hi0 hic).1⟩

/-- Witness of C3: [10,20,30,40] with count 4 is still [10,20,30,40] after
growing from capacity 4 to 8. -/
theorem resize_preserves_elements_witness :
    (resize fullBuffer).isSome = true
    ∧ ∃ s1, resize fullBuffer = some s1 ∧ s1.capacity = 8
      ∧ elements fullBuffer = some (ints [10, 20, 30, 40])
      ∧ elements s1 = some (ints [10, 20, 30, 40])
      ∧ s1.heap.read s1.arr 2 = fullBuffer.heap.read fullBuffer.arr 2 :=
  ⟨(resize_preserves_elements fullBuffer (by decide)).1 (by decide), _, rfl, by decide,
    by decide, by decide,
    ((resize_preserves_elements fullBuffer (by decide)).2 _ rfl 2 (by decide) (by decide)).2⟩

/-- C6, as stated, fails: the state `dynamicArrays` ends in after its cleanup
step has capacity 8 and count 7, not 0 and 0. -/
theorem cleanup_keeps_capacity_and_count :
    ∃ t p, dynamicArrays = some t ∧ t.getLast? = some p ∧ p.1 = Label.cleaning
      ∧ p.2.capacity = 8 ∧ p.2.count = 7 ∧ ¬ (p.2.capacity = 0 ∧ p.2.count = 0) :=
  ⟨_, _, rfl, rfl, by decide, by decide, by decide, by decide⟩

/-- C6, amended: on a buffer whose block is live, the cleanup step releases the
block and sets `arr` to `nullptr`, leaving capacity and count as they were;
run a second time, on the state it produced, it is a no-op. -/
theorem cleanup_releases_and_is_idempotent (s : DAState)
    (hlive : (s.heap.block s.arr).isSome = true) :
    ∃ s1, cleanup s = some s1
      ∧ s1.heap.block s.arr = none
      ∧ s1.heap.log = s.heap.log ++ [Event.free s.arr]
      ∧ s1.arr = 0
      ∧ s1.capacity = s.capacity
      ∧ s1.count = s.count
      ∧ cleanup s1 = some s1 :=
  cleanup_spec s hlive

/-- Witness of C6 (amended), on the full buffer of capacity 4 and count 4. -/
theorem cleanup_releases_and_is_idempotent_witness :
    ∃ s1, cleanup fullBuffer = some s1
      ∧ s1.heap.block 1 = none
      ∧ s1.heap.log = [Event.alloc 1 4] ++ [Event.free 1]
      ∧ s1.arr = 0
      ∧ s1.capacity = 4
      ∧ s1.count = 4
      ∧ cleanup s1 = some s1 :=
  cleanup_releases_and_is_idempotent fullBuffer (by decide)

/-- C7 (`0 ≤ count ≤ capacity`): `dynamicArrays` runs to its end; in every
state it goes through `0 ≤ count ≤ capacity`; it makes seven appends, and each
of them starts in a well-formed state with `0 ≤ count < capacity`, whose block
has exactly `capacity` cells, so the write `arr[count] = v` is inside it. -/
theorem dynamicArrays_count_within_capacity :
    ∃ t, dynamicArrays = some t
      ∧ (∀ p ∈ t, 0 ≤ p.2.count ∧ p.2.count ≤ p.2.capacity)
      ∧ (t.filter (fun p => p.1.isAppended)).length = 7
      ∧ (∀ q ∈ t.zip t.tail, q.2.1.isAppended = true →
          q.1.2.wf ∧ 0 ≤ q.1.2.count ∧ q.1.2.count < q.1.2.capacity) :=
  ⟨_, rfl, by decide, by decide, by decide⟩

/-- C8, as stated, fails: in the last state of `dynamicArrays`, after
`arr = nullptr`, the pointer is null while the capacity is still 8. -/
theorem dynamicArrays_final_null_with_capacity :
    ∃ t p, dynamicArrays = some t ∧ t.getLast? = some p ∧ p.1 = Label.cleaning
      ∧ p.2.arr = 0 ∧ p.2.capacity = 8 ∧ ¬ (p.2.arr ≠ 0 ↔ 0 < p.2.capacity) :=
  ⟨_, _, rfl, rfl, by decide, by decide, by decide, by decide⟩

/-- C8, amended: in every state of `dynamicArrays` before the last one, from
creation through the resize step to the `delete[] arr` of the cleanup, the
pointer is non-null if and only if the capacity is positive; the last state,
after `arr = nullptr`, has a null pointer and capacity 8. -/
theorem dynamicArrays_pointer_nonnull_until_cleanup :
    ∃ t, dynamicArrays = some t
      ∧ (∀ p ∈ t.dropLast, (p.2.arr ≠ 0 ↔ 0 < p.2.capacity))
      ∧ (∀ p ∈ t.getLast?, p.1 = Label.cleaning ∧ p.2.arr = 0 ∧ p.2.capacity = 8) :=
  ⟨_, rfl, by decide, by decide⟩

/-- C9, as stated, fails: from capacity 0 and count 0 the resize step yields
capacity 0 again, and the first append writes outside the empty block. -/
theorem appendAll_from_zero_capacity_fails :
    (create 0 Heap.empty).bind (appendAll [10]) = none := by
  decide

/-- C9, amended: on a buffer created with capacity `c0 ≥ 1` and count 0, `N`
appends with `2 * N` representable, each preceded by the resize step exactly
when `count == capacity`, end with count `N` after at most `2 * N` element
copies in total. -/
theorem appendAll_copies_bounded (c0 : Int) (h : Heap) (vs : List Int) (hc0 : 1 ≤ c0)
    (hr : 2 * (vs.length : Int) ≤ INT_MAX) :
    ∃ s1, (create c0 h).bind (appendAll vs) = some s1
      ∧ s1.count = vs.length ∧ s1.copied ≤ 2 * vs.length := by
  obtain ⟨h1, hnew, hl1, hb1, -, -⟩ := Heap.newArr_spec h (n := c0) (by omega)
  have hcreate : create c0 h = some ⟨c0, 0, h.blocks.length + 1, 0, h1⟩ := by
    simp [create, hnew]
  have hinv : growthInv c0 ⟨c0, 0, h.blocks.length + 1, 0, h1⟩ := by
    refine ⟨⟨le_refl _, by simp only; omega, ?_⟩, hc0, by simp, Or.inl rfl⟩
    simp only [hb1, Option.map_some', List.length_replicate]
    rw [Int.toNat_of_nonneg (by omega)]
  obtain ⟨s1, hrun, hcount, -, -, hcop, hfull⟩ :=
    appendAll_spec c0 vs _ hinv (by simpa using hr)
  refine ⟨s1, by simp [hcreate, hrun], by simpa using hcount, ?_⟩
  simp only [zero_add] at hcount
  rcases hfull with hf | hf
  · omega
  · omega

/-- Witness of C9 (amended): nine appends from capacity 1. -/
theorem appendAll_copies_bounded_witness :
    ∃ s1, (create 1 Heap.empty).bind (appendAll [1, 2, 3, 4, 5, 6, 7, 8, 9]) = some s1
      ∧ s1.count = ([1, 2, 3, 4, 5, 6, 7, 8, 9] : List Int).length
      ∧ s1.copied ≤ 2 * ([1, 2, 3, 4, 5, 6, 7, 8, 9] : List Int).length :=
  appendAll_copies_bounded 1 Heap.empty [1, 2, 3, 4, 5, 6, 7, 8, 9] (by decide) (by decide)

/-- C4 (equivalence of the two layouts): for `rows ≥ 0` and `cols ≥ 0`,
`twoDimensionalArrays` runs to its end whenever `rows * cols` is representable,
and whenever it does, for every valid cell `(r, c)` the read `table[r][c]` after
the table's fill loop and the read `flat[r * cols + c]` after the flat fill loop
give the same value, `r * cols + c + 1`. -/
theorem table_and_flat_agree (rows cols : Int) (hrows : 0 ≤ rows) (hcols : 0 ≤ cols) :
    (rows * cols ≤ INT_MAX → (twoDimensionalArraysWith rows cols).isSome = true)
    ∧ ∀ run, twoDimensionalArraysWith rows cols = some run →
        ∀ r c : Int, 0 ≤ r → r < rows → 0 ≤ c → c < cols →
          readTable run.tableFilled run.table r c = readFlat run.flatFilled run.flat cols r c
          ∧ readFlat run.flatFilled run.flat cols r c = some (Val.int (r * cols + c + 1)) := by
  lift rows to ℕ using hrows with n
  lift cols to ℕ using hcols with m
  constructor
  · intro hmax
    obtain ⟨run, hrun, -⟩ := run_spec n m hmax
    simp [hrun]
  · intro run hrun r c hr0 hr1 hc0 hc1
    have hmax := run_range hrun
    obtain ⟨run1, hrun1, htable, hflat, -, -, -, -, -, -, -, hsp, hrowsF, -, -, -, hfl, -⟩ :=
      run_spec n m hmax
    rw [hrun] at hrun1
    cases hrun1
    lift r to ℕ using hr0 with r
    lift c to ℕ using hc0 with c
    have hr : r < n := by exact_mod_cast hr1
    have hc : c < m := by exact_mod_cast hc1
    rw [htable, hflat, readTable_spec hsp (hrowsF r hr) hr hc, readFlat_spec hfl hr hc hmax]
    exact ⟨rfl, rfl⟩

/-- Witness of C4: `rows = 3`, `cols = 4`, cell `(2, 3)` holds 12 in both
tables. -/
theorem table_and_flat_agree_witness :
    (twoDimensionalArraysWith 3 4).isSome = true
    ∧ ∃ run, twoDimensionalArraysWith 3 4 = some run
      ∧ readTable run.tableFilled run.table 2 3 = readFlat run.flatFilled run.flat 4 2 3
      ∧ readFlat run.flatFilled run.flat 4 2 3 = some (Val.int (2 * 4 + 3 + 1)) :=
  ⟨(table_and_flat_agree 3 4 (by decide) (by decide)).1 (by decide), _, rfl,
    (table_and_flat_agree 3 4 (by decide) (by decide)).2 _ rfl 2 3 (by decide) (by decide)
      (by decide) (by decide)⟩

/-- C5 (flat fill): whenever `twoDimensionalArrays` runs to its end (it does
when `rows ≥ 0`, `cols ≥ 0` and `rows * cols` is representable), reading the
flat table at offset `r * cols + c` after the fill loop returns
`r * cols + c + 1` for every valid cell; for `rows = 3`, `cols = 4` the block
holds 1 to 12 in storage order, so the rows are [1,2,3,4], [5,6,7,8] and
[9,10,11,12]. -/
theorem flat_fill_values (rows cols : Int) :
    (0 ≤ rows → 0 ≤ cols → rows * cols ≤ INT_MAX →
      (twoDimensionalArraysWith rows cols).isSome = true)
    ∧ (∀ run, twoDimensionalArraysWith rows cols = some run →
        ∀ r c : Int, 0 ≤ r → r < rows → 0 ≤ c → c < cols →
          flatIndex cols r c = some (r * cols + c)
          ∧ run.flatFilled.read run.flat (r * cols + c) = some (Val.int (r * cols + c + 1)))
    ∧ (∃ run, twoDimensionalArrays = some run
        ∧ run.flatFilled.block run.flat
            = some (ints [1, 2, 3, 4, 5, 6, 7, 8, 9, 10, 11, 12])
        ∧ (List.range 3).map (fun r => (List.range 4).map (fun c =>
              readFlat run.flatFilled run.flat 4 (r : Int) (c : Int)))
            = [[1, 2, 3, 4], [5, 6, 7, 8], [9, 10, 11, 12]].map
                (fun row => row.map (fun v => some (Val.int v)))) := by
  refine ⟨?_, ?_, ⟨_, rfl, by decide, by decide⟩⟩
  · intro hrows hcols hmax
    lift rows to ℕ using hrows with n
    lift cols to ℕ using hcols with m
    obtain ⟨run, hrun, -⟩ := run_spec n m hmax
    simp [hrun]
  · intro run hrun r c hr0 hr1 hc0 hc1
    have hmax := run_range hrun
    lift rows to ℕ using (by omega : 0 ≤ rows) with n
    lift cols to ℕ using (by omega : 0 ≤ cols) with m
    obtain ⟨run1, hrun1, -, hflat, -, -, -, -, -, -, -, -, -, -, -, -, hfl, -⟩ :=
      run_spec n m hmax
    rw [hrun] at hrun1
    cases hrun1
    lift r to ℕ using hr0 with r
    lift c to ℕ using hc0 with c
    have hr : r < n := by exact_mod_cast hr1
    have hc : c < m := by exact_mod_cast hc1
    have hidx := flatIndex_spec hr hc hmax
    have hrd := readFlat_spec hfl hr hc hmax
    rw [readFlat, Option.bind_eq_bind, hidx, Option.some_bind] at hrd
    have e : ((r * m + c : Nat) : Int) = (r : Int) * (m : Int) + (c : Int) := by push_cast; rfl
    rw [e] at hidx hrd
    rw [hflat]
    exact ⟨hidx, hrd⟩

/-- Witness of C5: `rows = 3`, `cols = 4`, cell `(2, 0)` at offset 8 holds 9. -/
theorem flat_fill_values_witness :
    (twoDimensionalArraysWith 3 4).isSome = true
    ∧ ∃ run, twoDimensionalArraysWith 3 4 = some run
      ∧ flatIndex 4 2 0 = some (2 * 4 + 0)
      ∧ run.flatFilled.read run.flat (2 * 4 + 0) = some (Val.int (2 * 4 + 0 + 1)) :=
  ⟨(flat_fill_values 3 4).1 (by decide) (by decide) (by decide), _, rfl,
    (flat_fill_values 3 4).2.1 _ rfl 2 0 (by decide) (by decide) (by decide) (by decide)⟩

/-- C10 (release order): for `rows ≥ 0` and `cols ≥ 0`, `twoDimensionalArrays`
runs to its end whenever `rows * cols` is representable, and whenever it does:
the spine is block 1 and its cell `i` points to block `i + 2`; up to the end of
the fill the log holds the `rows + 1` allocations only; the release loop adds
the releases of the row blocks, in index order, after which every row block is
released and the spine is still live; then the spine is released, and that
release is the last event of the table's log. -/
theorem rows_released_before_spine (rows cols : Int) (hrows : 0 ≤ rows) (hcols : 0 ≤ cols) :
    (rows * cols ≤ INT_MAX → (twoDimensionalArraysWith rows cols).isSome = true)
    ∧ ∀ run, twoDimensionalArraysWith rows cols = some run →
        run.table = 1
        ∧ (∀ i : Int, 0 ≤ i → i < rows →
            run.tableFilled.readPtr run.table i = some (i.toNat + 2))
        ∧ run.tableFilled.log = Event.alloc 1 rows.toNat ::
            (List.range rows.toNat).map (fun i => Event.alloc (i + 2) cols.toNat)
        ∧ run.rowsFreed.log = run.tableFilled.log
            ++ (List.range rows.toNat).map (fun i => Event.free (i + 2))
        ∧ (∀ i, i < rows.toNat → (run.tableFilled.block (i + 2)).isSome = true
            ∧ run.rowsFreed.block (i + 2) = none)
        ∧ (run.rowsFreed.block run.table).isSome = true
        ∧ run.spineFreed.block run.table = none
        ∧ run.spineFreed.log = run.rowsFreed.log ++ [Event.free run.table]
        ∧ run.spineFreed.log.getLast? = some (Event.free run.table) := by
  lift rows to ℕ using hrows with n
  lift cols to ℕ using hcols with m
  constructor
  · intro hmax
    obtain ⟨run, hrun, -⟩ := run_spec n m hmax
    simp [hrun]
  · intro run hrun
    have hmax := run_range hrun
    obtain ⟨run1, hrun1, htable, -, hlog1, hlog2, hlog3, hlog4, -, -, -, hsp, hrowsF, hsp3,
      hdead, hb4, -, -⟩ := run_spec n m hmax
    rw [hrun] at hrun1
    cases hrun1
    simp only [Int.toNat_ofNat]
    refine ⟨htable, ?_, by rw [hlog2, hlog1], hlog3, ?_, ?_, by rw [htable]; exact hb4,
      by rw [htable]; exact hlog4, by rw [hlog4, htable]; simp⟩
    · intro i hi0 hi1
      lift i to ℕ using hi0 with i
      have hi : i < n := by exact_mod_cast hi1
      rw [htable, hsp.readPtr_eq hi, Int.toNat_ofNat]
      congr 1
      omega
    · intro i hi
      obtain ⟨b, hb, -, -⟩ := hrowsF i hi
      have e : 1 + 1 + i = i + 2 := by omega
      rw [e] at hb
      exact ⟨by simp [hb], hdead i hi⟩
    · obtain ⟨sp, hspb, -, -⟩ := hsp3
      rw [htable]
      simp [hspb]

/-- Witness of C10: for `rows = 3`, `cols = 4` the log of the table is four
allocations, the releases of the rows 2, 3, 4, and last the release of the
spine 1. -/
theorem rows_released_before_spine_witness :
    (twoDimensionalArraysWith 3 4).isSome = true
    ∧ ∃ run, twoDimensionalArraysWith 3 4 = some run
      ∧ run.spineFreed.log = [Event.alloc 1 3, Event.alloc 2 4, Event.alloc 3 4,
          Event.alloc 4 4, Event.free 2, Event.free 3, Event.free 4, Event.free 1]
      ∧ run.spineFreed.log.getLast? = some (Event.free run.table) :=
  ⟨(rows_released_before_spine 3 4 (by decide) (by decide)).1 (by decide), _, rfl, by decide,
    ((rows_released_before_spine 3 4 (by decide) (by decide)).2 _ rfl).2.2.2.2.2.2.2.2⟩

/-- C11 (allocations and releases): for `rows ≥ 0` and `cols ≥ 0`,
`twoDimensionalArrays`, print loops included, runs to its end whenever
`rows * cols` is representable, and whenever it does: the spine-plus-rows table
makes exactly `rows + 1` allocations and the flat table exactly one more; in
the final log the allocated addresses are distinct, the released addresses are
distinct and are a rearrangement of the allocated ones, and no block is live.
`dynamicArrays`, calls of `printArray` included, runs to its end with the log
alloc 1, alloc 2, free 1, free 2 and no live block.  A read or a write of a
released block, and a second release, have no value, so a run that reaches its
end has made none. -/
theorem blocks_released_exactly_once (rows cols : Int) (hrows : 0 ≤ rows) (hcols : 0 ≤ cols) :
    (rows * cols ≤ INT_MAX → (twoDimensionalArraysPrinted rows cols).isSome = true)
    ∧ (∀ run out, twoDimensionalArraysPrinted rows cols = some (run, out) →
        (allocated run.spineFreed.log).length = rows.toNat + 1
        ∧ allocated run.flatFreed.log = allocated run.spineFreed.log ++ [run.flat]
        ∧ (allocated run.flatFreed.log).Nodup
        ∧ (released run.flatFreed.log).Nodup
        ∧ (released run.flatFreed.log).Perm (allocated run.flatFreed.log)
        ∧ (∀ q, run.flatFreed.block q = none))
    ∧ (∃ t out s, dynamicArraysPrinted = some (t, out)
        ∧ t.getLast? = some (Label.cleaning, s)
        ∧ s.heap.log = [Event.alloc 1 4, Event.alloc 2 8, Event.free 1, Event.free 2]
        ∧ allocated s.heap.log = [1, 2]
        ∧ released s.heap.log = [1, 2]
        ∧ s.heap.blocks = [none, none])
    ∧ (∀ (h : Heap) (p : Nat) (i : Int) (v : Val), 0 < p → h.block p = none →
        h.read p i = none ∧ h.write p i v = none ∧ h.deleteArr p = none) := by
  refine ⟨?_, ?_, ⟨_, _, _, rfl, rfl, by decide, by decide, by decide, by decide⟩, ?_⟩
  · intro hmax
    lift rows to ℕ using hrows with n
    lift cols to ℕ using hcols with m
    obtain ⟨run, out, hp, -⟩ := printed_some n m hmax
    simp [hp]
  · intro run out hp
    have hrun := ((printed_iff _ _ _ _).mp hp).1
    have hmax := run_range hrun
    lift rows to ℕ using hrows with n
    lift cols to ℕ using hcols with m
    obtain ⟨ha4, -, ha7, hr7, hflat, hdead⟩ := run_log n m run hmax hrun
    have hnd := rowAddresses_nodup n
    have hperm : (released run.flatFreed.log).Perm (allocated run.flatFreed.log) := by
      rw [ha7, hr7]
      have hswap : ((List.range n).map (fun i => i + 2) ++ [1]).Perm
          ([1] ++ (List.range n).map (fun i => i + 2)) := List.perm_append_comm
      exact hswap.append_right [n + 2]
    refine ⟨by simp [ha4], by rw [ha7, ha4, hflat], by rw [ha7]; exact hnd, ?_, hperm, hdead⟩
    rw [hperm.nodup_iff, ha7]
    exact hnd
  · intro h p i v hp hb
    have hp0 : p ≠ 0 := by omega
    refine ⟨by simp [Heap.read, hb], by simp [Heap.write, hb], by simp [Heap.deleteArr, hb, hp0]⟩

/-- Witness of C11: for `rows = 3`, `cols = 4` the table makes 4 allocations
and the flat table one; the blocks 1 to 5 are each released once. -/
theorem blocks_released_exactly_once_witness :
    (twoDimensionalArraysPrinted 3 4).isSome = true
    ∧ (∃ run out, twoDimensionalArraysPrinted 3 4 = some (run, out)
        ∧ (allocated run.spineFreed.log).length = 4
        ∧ allocated run.flatFreed.log = [1, 2, 3, 4, 5]
        ∧ released run.flatFreed.log = [2, 3, 4, 1, 5]
        ∧ (released run.flatFreed.log).Perm (allocated run.flatFreed.log))
    ∧ (Heap.mk [none] [Event.alloc 1 4, Event.free 1]).read 1 0 = none :=
  ⟨(blocks_released_exactly_once 3 4 (by decide) (by decide)).1 (by decide),
    ⟨_, _, rfl, by decide, by decide, by decide,
      ((blocks_released_exactly_once 3 4 (by decide) (by decide)).2.1 _ _ rfl).2.2.2.2.1⟩,
    ((blocks_released_exactly_once 3 4 (by decide) (by decide)).2.2.2
      (Heap.mk [none] [Event.alloc 1 4, Event.free 1]) 1 0 Val.undef (by decide) (by decide)).1⟩

/-- C12: the code at the claim's input.  On the freshly created buffer
(count 0, capacity 4), `std::cout << "Empty array created"` followed by
`printArray(arr, count, capacity)` writes
"Empty array created  []  (count=0, capacity=4)" and a newline, with two spaces
between `]` and `(`; the text of the comment on line 54 has none there. -/
theorem printed_empty_buffer :
    (create 4 Heap.empty).bind (fun s =>
        (printArray s.heap s.arr s.count s.capacity ["Empty array created"]).map consoleText)
      = some "Empty array created  []  (count=0, capacity=4)\n"
    ∧ (create 4 Heap.empty).bind (fun s =>
        (printArray s.heap s.arr s.count s.capacity ["Empty array created"]).map consoleText)
      ≠ some "Empty array created  [](count=0, capacity=4)\n"
    ∧ dynamicArraysPrinted.map (fun x => consoleText (x.2.take 8))
      = some "Empty array created  []  (count=0, capacity=4)\n" := by
  refine ⟨by decide, by decide, by decide⟩

/-- C13 (format of `printArray`): for a block that starts with the `int`s `xs`
and every `count` with `1 ≤ count ≤ xs.length` (an `int`), `printArray` writes
two spaces and `[`, the first `count` elements in index order in decimal with
", " between consecutive ones and nothing after the last, then
"]  (count=", the count, ", capacity=", the capacity, ")" and a newline. -/
theorem printArray_format (h : Heap) (arr : Nat) (xs : List Int) (rest : List Val)
    (count capacity : Int) (out : List String)
    (hb : h.block arr = some (ints xs ++ rest)) (h1 : 1 ≤ count)
    (hlen : count ≤ xs.length) (hmax : count ≤ INT_MAX) :
    printArray h arr count capacity out
      = some (out ++ ["  ["] ++ ((xs.take count.toNat).map toString).intersperse ", "
          ++ ["]  (count=", toString count, ", capacity=", toString capacity, ")", "\n"]) := by
  lift count to ℕ using (by omega : 0 ≤ count) with n
  rw [Int.toNat_ofNat]
  exact printArray_spec h arr xs rest n capacity out hb (by omega) hmax

/-- Witness of C13: the two lines of the claim, on the blocks `dynamicArrays`
prints them from. -/
theorem printArray_format_witness :
    (printArray (Heap.mk [some (ints [10, 20, 30] ++ [Val.undef])] [Event.alloc 1 4])
        1 3 4 []).map consoleText
      = some "  [10, 20, 30]  (count=3, capacity=4)\n"
    ∧ (printArray (Heap.mk [none, some (ints [10, 20, 30, 40, 50, 60, 70] ++ [Val.undef])]
          [Event.alloc 1 4, Event.alloc 2 8, Event.free 1]) 2 7 8 []).map consoleText
      = some "  [10, 20, 30, 40, 50, 60, 70]  (count=7, capacity=8)\n" := by
  constructor
  · rw [printArray_format _ 1 [10, 20, 30] [Val.undef] 3 4 [] (by decide) (by decide)
      (by decide) (by decide)]
    decide
  · rw [printArray_format _ 2 [10, 20, 30, 40, 50, 60, 70] [Val.undef] 7 8 [] (by decide)
      (by decide) (by decide) (by decide)]
    decide

/-- C14 (the flat offset): for `rows ≥ 0` and `cols ≥ 0`, the offset
`r * cols + c` of a valid cell, where it is representable (it is for every
valid cell when `rows * cols` is), lies in `[0, rows * cols)`; distinct valid
cells have distinct offsets; every offset in `[0, rows * cols)` is the offset of
a valid cell; and whenever `twoDimensionalArrays`, print loops included, runs to
its end, the flat block is the one allocation of `rows * cols` cells and the
access at the offset of every valid cell is inside it. -/
theorem flat_offset_bijective (rows cols : Int) (hrows : 0 ≤ rows) (hcols : 0 ≤ cols) :
    (∀ r c k : Int, 0 ≤ r → r < rows → 0 ≤ c → c < cols → flatIndex cols r c = some k →
        k = r * cols + c ∧ 0 ≤ k ∧ k < rows * cols)
    ∧ (rows * cols ≤ INT_MAX → ∀ r c : Int, 0 ≤ r → r < rows → 0 ≤ c → c < cols →
        flatIndex cols r c = some (r * cols + c))
    ∧ (∀ r c r1 c1 k : Int, 0 ≤ r → r < rows → 0 ≤ c → c < cols →
        0 ≤ r1 → r1 < rows → 0 ≤ c1 → c1 < cols →
        flatIndex cols r c = some k → flatIndex cols r1 c1 = some k → r = r1 ∧ c = c1)
    ∧ (rows * cols ≤ INT_MAX → ∀ k : Int, 0 ≤ k → k < rows * cols →
        ∃ r c : Int, 0 ≤ r ∧ r < rows ∧ 0 ≤ c ∧ c < cols ∧ flatIndex cols r c = some k)
    ∧ (∀ run out, twoDimensionalArraysPrinted rows cols = some (run, out) →
        run.flatAllocated.log
          = run.spineFreed.log ++ [Event.alloc run.flat (rows * cols).toNat]
        ∧ (run.flatFilled.block run.flat).map (fun b => (b.length : Int)) = some (rows * cols)
        ∧ ∀ r c : Int, 0 ≤ r → r < rows → 0 ≤ c → c < cols →
            (run.flatFilled.read run.flat (r * cols + c)).isSome = true) := by
  refine ⟨?_, ?_, ?_, ?_, ?_⟩
  · intro r c k hr0 hr hc0 hc hk
    obtain ⟨rfl, -, -⟩ := flatIndex_eq_some hk
    obtain ⟨h1, h2⟩ := offset_lt hr0 hr hc0 hc
    exact ⟨rfl, by omega, h2⟩
  · intro hmax r c hr0 hr hc0 hc
    obtain ⟨h1, h2⟩ := offset_lt hr0 hr hc0 hc
    exact flatIndex_of_range h1 hc0 (by omega)
  · intro r c r1 c1 k _ _ hc0 hc _ _ hd0 hd hk hk1
    obtain ⟨e1, -, -⟩ := flatIndex_eq_some hk
    obtain ⟨e2, -, -⟩ := flatIndex_eq_some hk1
    exact offset_inj hc0 hc hd0 hd (by rw [← e1, ← e2])
  · intro hmax k hk0 hk
    obtain ⟨h1, h2, h3, h4, h5⟩ := offset_surj hcols hk0 hk
    refine ⟨k / cols, k % cols, h1, h2, h3, h4, ?_⟩
    have := @flatIndex_of_range cols (k / cols) (k % cols)
      (mul_nonneg h1 hcols) h3 (by omega)
    rw [h5] at this
    exact this
  · intro run out hp
    have hrun := ((printed_iff _ _ _ _).mp hp).1
    have hmax := run_range hrun
    lift rows to ℕ using hrows with n
    lift cols to ℕ using hcols with m
    obtain ⟨run1, hrun1, -, hflat, -, -, -, -, hlog5, -, -, -, -, -, -, -, hfl, -⟩ :=
      run_spec n m hmax
    rw [hrun] at hrun1
    cases hrun1
    obtain ⟨b, hb, hblen, hcells⟩ := hfl
    have hnm : (n : Int) * (m : Int) = ((n * m : Nat) : Int) := by push_cast; rfl
    rw [hflat]
    refine ⟨by rw [hlog5, hnm, Int.toNat_ofNat], by rw [hb, Option.map_some', hblen, hnm], ?_⟩
    intro r c hr0 hr hc0 hc
    lift r to ℕ using hr0 with r
    lift c to ℕ using hc0 with c
    have hr' : r < n := by exact_mod_cast hr
    have hc' : c < m := by exact_mod_cast hc
    have hbnd : r * m + c + 1 ≤ n * m := by exact_mod_cast cell_bound hr' hc'
    have e : (r : Int) * (m : Int) + (c : Int) = ((r * m + c : Nat) : Int) := by push_cast; rfl
    rw [e, Heap.read_spec hb (by omega), Int.toNat_ofNat, hcells _ (by omega)]
    rfl

/-- Witness of C14: for `rows = 3`, `cols = 4`, the cell `(2, 3)` has offset
11, inside `[0, 12)`; two valid cells with offset 6 are the same cell `(1, 2)`;
offset 6 is reached; and the read at offset 11 is inside the block. -/
theorem flat_offset_bijective_witness :
    ((11 : Int) = 2 * 4 + 3 ∧ (0 : Int) ≤ 11 ∧ (11 : Int) < 3 * 4)
    ∧ flatIndex 4 2 3 = some (2 * 4 + 3)
    ∧ ((1 : Int) = 1 ∧ (2 : Int) = 2)
    ∧ (∃ r c : Int, 0 ≤ r ∧ r < 3 ∧ 0 ≤ c ∧ c < 4 ∧ flatIndex 4 r c = some 6)
    ∧ (∃ run out, twoDimensionalArraysPrinted 3 4 = some (run, out)
        ∧ (run.flatFilled.read run.flat (2 * 4 + 3)).isSome = true) :=
  ⟨(flat_offset_bijective 3 4 (by decide) (by decide)).1 2 3 11 (by decide) (by decide)
      (by decide) (by decide) (by decide),
    (flat_offset_bijective 3 4 (by decide) (by decide)).2.1 (by decide) 2 3 (by decide)
      (by decide) (by decide) (by decide),
    (flat_offset_bijective 3 4 (by decide) (by decide)).2.2.1 1 2 1 2 6 (by decide) (by decide)
      (by decide) (by decide) (by decide) (by decide) (by decide) (by decide) (by decide)
      (by decide),
    (flat_offset_bijective 3 4 (by decide) (by decide)).2.2.2.1 (by decide) 6 (by decide)
      (by decide),
    ⟨_, _, rfl, ((flat_offset_bijective 3 4 (by decide) (by decide)).2.2.2.2 _ _ rfl).2.2 2 3
      (by decide) (by decide) (by decide) (by decide)⟩⟩

end DynamicArrays
